import Mathlib

/-!
Verification of the staged-secret sanitization and autonomous-commit pipeline
of this repository (`RepoHelpers.py`, `workflows.py`).

Texts are `List Char` (Python `str` is a sequence of Unicode code points) and
byte strings are `List Nat`.  The regex passes of `_sanitize_text` are embedded
as deterministic scanners: for each of the concrete patterns of
`KV_VALUE_PATTERNS` and `SECRET_TOKEN_PATTERNS` the greedy sub-expressions
consume character classes that are disjoint from what may legally follow, so
Python's backtracking search has exactly one possible outcome at each start
position, which the scanners compute directly.  (This reading was validated
against CPython's `re` on several hundred thousand fuzzed inputs before being
fixed here.)  `\s`, `\b` and `\w` are modelled at ASCII granularity; all
concrete inputs appearing below are ASCII, where the two notions agree.

A number of call sites in the source were mangled by the tool itself:
identifiers were overwritten by the literal `api_key` (`RepoHelpers.py:212`,
`:326`, `:351`, `:381`, `:400`, `:608`, `:613`, `workflows.py:45`, `:67`,
`:82`, `:104`), and `workflows.py:100` is a SyntaxError.  Since the
module-level `api_key` is a configuration string, each reached mangled call
raises `TypeError` at runtime.  The embeddings below model this as-written
behavior: a mangled call site that executes is an `Except.error`, and the
doc comment of each affected definition records the line.  Where a definition
additionally keeps the intended (restored) logic for comparison — the
composer's fallback — it says so explicitly.
-/

/-- Single quote character (written via its code point). -/
def sQuote : Char := Char.ofNat 39

/-- Backtick character (written via its code point). -/
def bQuote : Char := Char.ofNat 96

/-- ASCII alphanumeric, `[A-Za-z0-9]` of the patterns. -/
def isAlnum (c : Char) : Bool := c.isAlpha || c.isDigit

/-- Key-name class `[A-Za-z0-9_.-]` of `KV_VALUE_PATTERNS`. -/
def isKeyChar (c : Char) : Bool := isAlnum c || c = '_' || c = '.' || c = '-'

/-- Value class of the first key/value pattern. -/
def isValChar (c : Char) : Bool :=
  isAlnum c || c = '_' || c = '-' || c = '/' || c = '+' || c = '='

/-- Python regex whitespace, at ASCII granularity. -/
def isPySpace (c : Char) : Bool :=
  c = ' ' || c = Char.ofNat 9 || c = Char.ofNat 10 || c = Char.ofNat 13 ||
  c = Char.ofNat 11 || c = Char.ofNat 12

/-- Word character for the `\b` assertion, `[A-Za-z0-9_]`. -/
def isWordChar (c : Char) : Bool := isAlnum c || c = '_'

/-- Class `[A-Za-z0-9_-]` used by the JWT-shaped token patterns. -/
def isWdChar (c : Char) : Bool := isAlnum c || c = '_' || c = '-'

/-- Class `[A-Za-z0-9\-\._=]` of the bearer-token pattern. -/
def isBearerChar (c : Char) : Bool :=
  isAlnum c || c = '-' || c = '.' || c = '_' || c = '='

/-- Class `[0-9A-Z]` of the AWS key patterns. -/
def isUpperDigit (c : Char) : Bool := c.isUpper || c.isDigit

/-- The redaction token that every pattern pass substitutes for a match. -/
def apiKey : List Char := "api_key".toList

/-- A single regex match split as the pieces the substitution keeps (the key,
operator and quote groups) around the piece it replaces (the secret value). -/
structure MatchParts where
  keep1 : List Char
  gone : List Char
  keep2 : List Char
deriving DecidableEq

/-- Text the match consumed. -/
def MatchParts.orig (m : MatchParts) : List Char := m.keep1 ++ m.gone ++ m.keep2

/-- Text the substitution emits for the match. -/
def MatchParts.repl (m : MatchParts) : List Char := m.keep1 ++ apiKey ++ m.keep2

/-- One step of a `re.sub` scan: an unmatched character or a match. -/
inductive Seg where
  | gap (c : Char)
  | hit (m : MatchParts)
deriving DecidableEq

/-- Original text of a scan step. -/
def Seg.orig : Seg → List Char
  | .gap c => [c]
  | .hit m => m.orig

/-- Output text of a scan step. -/
def Seg.out : Seg → List Char
  | .gap c => [c]
  | .hit m => m.repl

/-- Whether a scan step is a match. -/
def Seg.isHit : Seg → Bool
  | .gap _ => false
  | .hit _ => true

/-- Concatenated original text of a scan. -/
def catOrig (l : List Seg) : List Char := (l.map Seg.orig).flatten

/-- Concatenated output text of a scan. -/
def catOut (l : List Seg) : List Char := (l.map Seg.out).flatten

/-- Whether a scan contains a match. -/
def hasHit (l : List Seg) : Bool := l.any Seg.isHit

/-- A position matcher: given the character before the position (for the
zero-width assertions) and the remaining text, the match at this position and
the text after it, if the pattern matches here. -/
abbrev SubMatcher := Option Char → List Char → Option (MatchParts × List Char)

/-- The non-overlapping leftmost scan that `re.sub` performs: try the pattern
at each position, emit the match and resume after it, otherwise keep one
character and move on.  Fuel bounds the recursion; `length s` is enough for
any matcher that consumes at least one character per match. -/
def subSegs (M : SubMatcher) : Nat → Option Char → List Char → List Seg
  | 0, _, _ => []
  | _ + 1, _, [] => []
  | f + 1, prev, c :: tail =>
    match M prev (c :: tail) with
    | some (m, rest) =>
        Seg.hit m :: subSegs M f (m.orig.getLast?.or prev) rest
    | none => Seg.gap c :: subSegs M f (some c) tail

/-- The full substitution pass of one pattern. -/
def pySub (M : SubMatcher) (s : List Char) : List Char :=
  catOut (subSegs M s.length none s)

/-- A matcher is sound when every match it reports consumes a prefix of the
text and replaces at least 8 characters (every pattern of the source has a
16-, 11- or longer-character minimum for the replaced group). -/
def MatcherOK (M : SubMatcher) : Prop :=
  ∀ prev s m rest, M prev s = some (m, rest) →
    s = m.orig ++ rest ∧ 8 ≤ m.gone.length

theorem catOrig_cons (seg : Seg) (l : List Seg) :
    catOrig (seg :: l) = seg.orig ++ catOrig l := by
  simp [catOrig]

theorem catOut_cons (seg : Seg) (l : List Seg) :
    catOut (seg :: l) = seg.out ++ catOut l := by
  simp [catOut]

theorem MatchParts.orig_length (m : MatchParts) :
    m.orig.length = m.keep1.length + m.gone.length + m.keep2.length := by
  simp [MatchParts.orig]; omega

theorem subSegs_orig {M : SubMatcher} (hM : MatcherOK M) :
    ∀ (f : Nat) (prev : Option Char) (s : List Char), s.length ≤ f →
      catOrig (subSegs M f prev s) = s := by
  intro f
  induction f with
  | zero =>
      intro prev s hs
      have : s = [] := List.eq_nil_of_length_eq_zero (Nat.le_zero.mp hs)
      subst this
      simp [subSegs, catOrig]
  | succ f ih =>
      intro prev s hs
      match s with
      | [] => simp [subSegs, catOrig]
      | c :: tail =>
        cases hmatch : M prev (c :: tail) with
        | none =>
            have htail := ih (some c) tail (by
              simp only [List.length_cons] at hs; omega)
            rw [subSegs, hmatch, catOrig_cons, htail]
            rfl
        | some pr =>
            obtain ⟨m, rest⟩ := pr
            obtain ⟨hdecomp, hlen⟩ := hM prev (c :: tail) m rest hmatch
            have hslen : (c :: tail).length = m.orig.length + rest.length := by
              rw [hdecomp, List.length_append]
            have horig : 1 ≤ m.orig.length := by
              rw [MatchParts.orig_length]; omega
            have hrest : rest.length ≤ f := by
              simp only [List.length_cons] at hslen hs; omega
            have hr := ih (m.orig.getLast?.or prev) rest hrest
            rw [subSegs, hmatch, catOrig_cons, hr]
            exact hdecomp.symm

theorem subSegs_hits {M : SubMatcher} {P : MatchParts → Prop}
    (hM : ∀ prev s m rest, M prev s = some (m, rest) → P m) :
    ∀ (f : Nat) (prev : Option Char) (s : List Char) (m : MatchParts),
      Seg.hit m ∈ subSegs M f prev s → P m := by
  intro f
  induction f with
  | zero => intro prev s m h; simp [subSegs] at h
  | succ f ih =>
      intro prev s m h
      match s with
      | [] => simp [subSegs] at h
      | c :: tail =>
        cases hmatch : M prev (c :: tail) with
        | none =>
            rw [subSegs, hmatch] at h
            rcases List.mem_cons.mp h with h1 | h1
            · cases h1
            · exact ih _ _ _ h1
        | some pr =>
            obtain ⟨m', rest⟩ := pr
            rw [subSegs, hmatch] at h
            rcases List.mem_cons.mp h with h1 | h1
            · cases h1; exact hM _ _ _ _ hmatch
            · exact ih _ _ _ h1

theorem apiKey_length : apiKey.length = 7 := by decide

/-- Hypothesis that all matches of a scan replace at least 8 characters. -/
def HitsBig (l : List Seg) : Prop := ∀ m, Seg.hit m ∈ l → 8 ≤ m.gone.length

theorem hitsBig_cons {seg : Seg} {l : List Seg} (h : HitsBig (seg :: l)) :
    HitsBig l := fun m hm => h m (List.mem_cons_of_mem _ hm)

theorem seg_out_length_le {seg : Seg} (h : ∀ m, seg = Seg.hit m → 8 ≤ m.gone.length) :
    seg.out.length ≤ seg.orig.length := by
  cases seg with
  | gap c => simp [Seg.out, Seg.orig]
  | hit m =>
      have h8 := h m rfl
      simp only [Seg.out, Seg.orig, MatchParts.repl, MatchParts.orig,
        List.length_append, apiKey_length]
      omega

theorem catOut_length_le {l : List Seg} (h : HitsBig l) :
    (catOut l).length ≤ (catOrig l).length := by
  induction l with
  | nil => simp [catOut, catOrig]
  | cons seg l ih =>
      have h1 := seg_out_length_le (fun m hm => h m (by rw [← hm]; exact List.mem_cons_self _ _))
      have h2 := ih (hitsBig_cons h)
      rw [catOut_cons, catOrig_cons, List.length_append, List.length_append]
      omega

theorem catOut_of_no_hit {l : List Seg} (h : hasHit l = false) :
    catOut l = catOrig l := by
  induction l with
  | nil => rfl
  | cons seg l ih =>
      simp only [hasHit, List.any_cons, Bool.or_eq_false_iff] at h
      have hseg : seg.out = seg.orig := by
        cases seg with
        | gap c => rfl
        | hit m => simp [Seg.isHit] at h
      rw [catOut_cons, catOrig_cons, hseg, ih (by simp [hasHit, h.2])]

theorem catOut_length_lt {l : List Seg} (hbig : HitsBig l) (h : hasHit l = true) :
    (catOut l).length < (catOrig l).length := by
  induction l with
  | nil => simp [hasHit] at h
  | cons seg l ih =>
      simp only [hasHit, List.any_cons, Bool.or_eq_true] at h
      rw [catOut_cons, catOrig_cons, List.length_append, List.length_append]
      rcases h with h | h
      · cases seg with
        | gap c => simp [Seg.isHit] at h
        | hit m =>
            have h8 := hbig m (List.mem_cons_self _ _)
            have h2 := catOut_length_le (hitsBig_cons hbig)
            simp only [Seg.out, Seg.orig, MatchParts.repl, MatchParts.orig,
              List.length_append, apiKey_length]
            omega
      · have h1 := seg_out_length_le
          (fun m hm => hbig m (by rw [← hm]; exact List.mem_cons_self _ _))
        have h2 := ih (hitsBig_cons hbig) h
        omega

theorem subSegs_hitsBig {M : SubMatcher} (hM : MatcherOK M)
    (f : Nat) (prev : Option Char) (s : List Char) :
    HitsBig (subSegs M f prev s) := by
  intro m hm
  exact subSegs_hits (P := fun m => 8 ≤ m.gone.length)
    (fun prev s m rest h => (hM prev s m rest h).2) f prev s m hm

theorem pySub_length_le {M : SubMatcher} (hM : MatcherOK M) (s : List Char) :
    (pySub M s).length ≤ s.length := by
  have h1 := catOut_length_le (subSegs_hitsBig hM s.length none s)
  have h2 : (catOrig (subSegs M s.length none s)).length = s.length := by
    rw [subSegs_orig hM s.length none s (Nat.le_refl _)]
  rw [pySub]; omega

theorem pySub_ne_iff {M : SubMatcher} (hM : MatcherOK M) (s : List Char) :
    pySub M s ≠ s ↔ hasHit (subSegs M s.length none s) = true := by
  have horig := subSegs_orig hM s.length none s (Nat.le_refl _)
  constructor
  · intro hne
    by_contra h
    have h0 : hasHit (subSegs M s.length none s) = false := by
      cases hh : hasHit (subSegs M s.length none s) with
      | false => rfl
      | true => exact absurd hh h
    exact hne (by rw [pySub, catOut_of_no_hit h0, horig])
  · intro h
    have := catOut_length_lt (subSegs_hitsBig hM s.length none s) h
    intro heq
    rw [pySub] at heq
    rw [heq, horig] at this
    exact Nat.lt_irrefl _ this

theorem pySub_lt_of_ne {M : SubMatcher} (hM : MatcherOK M) (s : List Char)
    (h : pySub M s ≠ s) : (pySub M s).length < s.length := by
  have hh := (pySub_ne_iff hM s).mp h
  have := catOut_length_lt (subSegs_hitsBig hM s.length none s) hh
  have horig : (catOrig (subSegs M s.length none s)).length = s.length := by
    rw [subSegs_orig hM s.length none s (Nat.le_refl _)]
  rw [pySub]; omega

/-- Greedy run of at least `lo` characters of a class: regex `[c]{lo,}` where
no backtracking into the run can help (the class never contains what follows). -/
def reqRun (p : Char → Bool) (lo : Nat) (s : List Char) : Option (List Char × List Char) :=
  if lo ≤ (s.takeWhile p).length then some (s.takeWhile p, s.dropWhile p) else none

/-- Greedy bounded run: regex `[c]{lo,hi}`, taking `min hi` of the maximal run. -/
def reqRunB (p : Char → Bool) (lo hi : Nat) (s : List Char) : Option (List Char × List Char) :=
  if lo ≤ min hi (s.takeWhile p).length then
    some (s.take (min hi (s.takeWhile p).length), s.drop (min hi (s.takeWhile p).length))
  else none

/-- One character satisfying a predicate. -/
def reqChar (p : Char → Bool) : List Char → Option (Char × List Char)
  | [] => none
  | c :: r => if p c then some (c, r) else none

/-- A case-sensitive literal; returns the rest. -/
def reqLit (lit : List Char) (s : List Char) : Option (List Char) :=
  if lit.isPrefixOf s then some (s.drop lit.length) else none

/-- A literal given in lowercase, matched case-insensitively (for the
`re.IGNORECASE` pattern and the `(?i:...)` group); returns the consumed
characters as they stand in the text, and the rest. -/
def reqLitCI : List Char → List Char → Option (List Char × List Char)
  | [], s => some ([], s)
  | _ :: _, [] => none
  | l :: ls, c :: cs =>
      if c.toLower = l then
        match reqLitCI ls cs with
        | some (a, r) => some (c :: a, r)
        | none => none
      else none

theorem reqRun_sound {p : Char → Bool} {lo : Nat} {s a r : List Char}
    (h : reqRun p lo s = some (a, r)) :
    s = a ++ r ∧ lo ≤ a.length ∧ ∀ c ∈ a, p c := by
  rw [reqRun] at h
  split at h
  · cases h
    refine ⟨(List.takeWhile_append_dropWhile (p := p) (l := s)).symm, by assumption,
      fun c hc => List.mem_takeWhile_imp hc⟩
  · cases h

theorem take_takeWhile_eq {p : Char → Bool} {s : List Char} {t : Nat}
    (ht : t ≤ (s.takeWhile p).length) : s.take t = (s.takeWhile p).take t := by
  conv_lhs => rw [← List.takeWhile_append_dropWhile (p := p) (l := s)]
  rw [List.take_append_eq_append_take]
  have : t - (s.takeWhile p).length = 0 := by omega
  rw [this]
  simp

theorem reqRunB_sound {p : Char → Bool} {lo hi : Nat} {s a r : List Char}
    (h : reqRunB p lo hi s = some (a, r)) :
    s = a ++ r ∧ lo ≤ a.length ∧ a.length ≤ hi ∧ ∀ c ∈ a, p c := by
  rw [reqRunB] at h
  split at h
  · cases h
    rename_i hlo
    have hlen : (s.take (min hi (s.takeWhile p).length)).length
        = min hi (s.takeWhile p).length := by
      rw [List.length_take]
      have := (List.takeWhile_prefix (p := p) (l := s)).length_le
      omega
    refine ⟨(List.take_append_drop _ s).symm, by omega, by omega, ?_⟩
    intro c hc
    have hsub := take_takeWhile_eq (p := p) (s := s)
      (t := min hi (s.takeWhile p).length) (by omega)
    rw [hsub] at hc
    exact List.mem_takeWhile_imp (List.take_subset _ _ hc)
  · cases h

theorem reqChar_sound {p : Char → Bool} {s r : List Char} {c : Char}
    (h : reqChar p s = some (c, r)) : s = c :: r ∧ p c := by
  match s with
  | [] => cases h
  | c' :: r' =>
      rw [reqChar] at h
      split at h
      · cases h; exact ⟨rfl, by assumption⟩
      · cases h

theorem reqLit_sound {lit s r : List Char} (h : reqLit lit s = some r) :
    s = lit ++ r := by
  rw [reqLit] at h
  split at h
  · cases h
    rename_i hpre
    obtain ⟨w, hw⟩ := List.isPrefixOf_iff_prefix.mp hpre
    rw [← hw, List.drop_append_eq_append_drop]
    simp
  · cases h

theorem reqLitCI_sound : ∀ {lit s a r : List Char},
    reqLitCI lit s = some (a, r) → s = a ++ r ∧ a.length = lit.length := by
  intro lit
  induction lit with
  | nil => intro s a r h; rw [reqLitCI] at h; cases h; exact ⟨rfl, rfl⟩
  | cons l ls ih =>
      intro s a r h
      match s with
      | [] => cases h
      | c :: cs =>
          rw [reqLitCI] at h
          split at h
          · cases hrec : reqLitCI ls cs with
            | none => rw [hrec] at h; cases h
            | some pr =>
                obtain ⟨a', r'⟩ := pr
                rw [hrec] at h
                cases h
                obtain ⟨h1, h2⟩ := ih hrec
                exact ⟨by rw [h1]; rfl, by simp [h2]⟩
          · cases h

/-- First pattern of `KV_VALUE_PATTERNS`:
`([A-Za-z0-9_.-]{2,}\s*[:=]\s*)(["\x27]?)([A-Za-z0-9_\-\/\+=]{16,})(\2)`.
Greedy groups are deterministic here: key-, space-, operator-, quote- and
value-classes are pairwise disjoint where they meet, and neither quote
character is a value character, so a failed closing-quote check cannot be
repaired by backtracking (Python then also fails, since with an empty open
quote the value would have to start at the quote character). -/
def matchKV1 (s : List Char) : Option (MatchParts × List Char) :=
  match reqRun isKeyChar 2 s with
  | none => none
  | some (key, r1) =>
    match reqRun isPySpace 0 r1 with
    | none => none
    | some (sp1, r2) =>
      match reqChar (fun c => c = ':' || c = '=') r2 with
      | none => none
      | some (op, r3) =>
        match reqRun isPySpace 0 r3 with
        | none => none
        | some (sp2, r4) =>
          match r4 with
          | [] => none
          | q :: r5 =>
            if q = '"' || q = sQuote then
              match reqRun isValChar 16 r5 with
              | none => none
              | some (v, r6) =>
                match reqChar (fun c => c = q) r6 with
                | none => none
                | some (_, r7) =>
                    some (⟨key ++ sp1 ++ op :: sp2 ++ [q], v, [q]⟩, r7)
            else
              match reqRun isValChar 16 r4 with
              | none => none
              | some (v, r6) => some (⟨key ++ sp1 ++ op :: sp2, v, []⟩, r6)

/-- Shared tail of the second pattern of `KV_VALUE_PATTERNS` (everything after
the optional `export\s+`), under `re.IGNORECASE`. -/
def kv2Core (s : List Char) : Option (MatchParts × List Char) :=
  match reqRun isKeyChar 2 s with
  | none => none
  | some (key, r1) =>
    match reqRun isPySpace 0 r1 with
    | none => none
    | some (sp1, r2) =>
      match reqChar (fun c => c = ':' || c = '=') r2 with
      | none => none
      | some (op, r3) =>
        match reqRun isPySpace 0 r3 with
        | none => none
        | some (sp2, r4) =>
          match r4 with
          | [] => none
          | q :: r5 =>
            if q = '"' || q = sQuote || q = bQuote then
              match reqLitCI "sk-".toList r5 with
              | none => none
              | some (sk, r6) =>
                match reqRunB isAlnum 8 48 r6 with
                | none => none
                | some (v, r7) =>
                  match reqChar (fun c => c = q) r7 with
                  | none => none
                  | some (_, r8) =>
                      some (⟨key ++ sp1 ++ op :: sp2 ++ [q], sk ++ v, [q]⟩, r8)
            else
              match reqLitCI "sk-".toList r4 with
              | none => none
              | some (sk, r6) =>
                match reqRunB isAlnum 8 48 r6 with
                | none => none
                | some (v, r7) => some (⟨key ++ sp1 ++ op :: sp2, sk ++ v, []⟩, r7)

/-- Second pattern of `KV_VALUE_PATTERNS`:
`((?:export\s+)?[A-Za-z0-9_.-]{2,}\s*[:=]\s*)(["\x27\x60]?)(sk-[A-Za-z0-9]{8,48})(\2)`
with `re.IGNORECASE`.  The optional `export` branch is preferred and falls
back to the plain branch when any later group fails. -/
def matchKV2 (s : List Char) : Option (MatchParts × List Char) :=
  match reqLitCI "export".toList s with
  | some (ex, r1) =>
    match reqRun isPySpace 1 r1 with
    | some (sp, r2) =>
      match kv2Core r2 with
      | some (m, rest) => some (⟨ex ++ sp ++ m.keep1, m.gone, m.keep2⟩, rest)
      | none => kv2Core s
    | none => kv2Core s
  | none => kv2Core s

theorem matchKV1_sound {s : List Char} {m : MatchParts} {rest : List Char}
    (h : matchKV1 s = some (m, rest)) :
    s = m.orig ++ rest ∧ 16 ≤ m.gone.length := by
  rw [matchKV1] at h
  cases h1 : reqRun isKeyChar 2 s with
  | none => rw [h1] at h; simp at h
  | some pr1 =>
    obtain ⟨key, r1⟩ := pr1
    rw [h1] at h; simp only at h
    obtain ⟨e1, -, -⟩ := reqRun_sound h1
    cases h2 : reqRun isPySpace 0 r1 with
    | none => rw [h2] at h; simp at h
    | some pr2 =>
      obtain ⟨sp1, r2⟩ := pr2
      rw [h2] at h; simp only at h
      obtain ⟨e2, -, -⟩ := reqRun_sound h2
      cases h3 : reqChar (fun c => c = ':' || c = '=') r2 with
      | none => rw [h3] at h; simp at h
      | some pr3 =>
        obtain ⟨op, r3⟩ := pr3
        rw [h3] at h; simp only at h
        obtain ⟨e3, -⟩ := reqChar_sound h3
        cases h4 : reqRun isPySpace 0 r3 with
        | none => rw [h4] at h; simp at h
        | some pr4 =>
          obtain ⟨sp2, r4⟩ := pr4
          rw [h4] at h; simp only at h
          obtain ⟨e4, -, -⟩ := reqRun_sound h4
          match r4 with
          | [] => simp at h
          | q :: r5 =>
            simp only at h
            split at h
            · cases h5 : reqRun isValChar 16 r5 with
              | none => rw [h5] at h; simp at h
              | some pr5 =>
                obtain ⟨v, r6⟩ := pr5
                rw [h5] at h; simp only at h
                obtain ⟨e5, hv, -⟩ := reqRun_sound h5
                cases h6 : reqChar (fun c => c = q) r6 with
                | none => rw [h6] at h; simp at h
                | some pr6 =>
                  obtain ⟨c6, r7⟩ := pr6
                  rw [h6] at h
                  simp only [Option.some.injEq, Prod.mk.injEq] at h
                  obtain ⟨hm, hr⟩ := h
                  subst hm; subst hr
                  obtain ⟨e6, hc6⟩ := reqChar_sound h6
                  have hc6' : c6 = q := by simpa using hc6
                  subst hc6'
                  refine ⟨?_, hv⟩
                  rw [e1, e2, e3, e4, e5, e6, MatchParts.orig]
                  simp
            · cases h5 : reqRun isValChar 16 (q :: r5) with
              | none => rw [h5] at h; simp at h
              | some pr5 =>
                obtain ⟨v, r6⟩ := pr5
                rw [h5] at h
                simp only [Option.some.injEq, Prod.mk.injEq] at h
                obtain ⟨hm, hr⟩ := h
                subst hm; subst hr
                obtain ⟨e5, hv, -⟩ := reqRun_sound h5
                refine ⟨?_, hv⟩
                rw [e1, e2, e3, e4, e5, MatchParts.orig]
                simp

theorem kv2Core_sound {s : List Char} {m : MatchParts} {rest : List Char}
    (h : kv2Core s = some (m, rest)) :
    s = m.orig ++ rest ∧ 11 ≤ m.gone.length := by
  rw [kv2Core] at h
  cases h1 : reqRun isKeyChar 2 s with
  | none => rw [h1] at h; simp at h
  | some pr1 =>
    obtain ⟨key, r1⟩ := pr1
    rw [h1] at h; simp only at h
    obtain ⟨e1, -, -⟩ := reqRun_sound h1
    cases h2 : reqRun isPySpace 0 r1 with
    | none => rw [h2] at h; simp at h
    | some pr2 =>
      obtain ⟨sp1, r2⟩ := pr2
      rw [h2] at h; simp only at h
      obtain ⟨e2, -, -⟩ := reqRun_sound h2
      cases h3 : reqChar (fun c => c = ':' || c = '=') r2 with
      | none => rw [h3] at h; simp at h
      | some pr3 =>
        obtain ⟨op, r3⟩ := pr3
        rw [h3] at h; simp only at h
        obtain ⟨e3, -⟩ := reqChar_sound h3
        cases h4 : reqRun isPySpace 0 r3 with
        | none => rw [h4] at h; simp at h
        | some pr4 =>
          obtain ⟨sp2, r4⟩ := pr4
          rw [h4] at h; simp only at h
          obtain ⟨e4, -, -⟩ := reqRun_sound h4
          match r4 with
          | [] => simp at h
          | q :: r5 =>
            simp only at h
            split at h
            · cases h5 : reqLitCI "sk-".toList r5 with
              | none => rw [h5] at h; simp at h
              | some pr5 =>
                obtain ⟨sk, r6⟩ := pr5
                rw [h5] at h; simp only at h
                obtain ⟨e5, hsk⟩ := reqLitCI_sound h5
                cases h6 : reqRunB isAlnum 8 48 r6 with
                | none => rw [h6] at h; simp at h
                | some pr6 =>
                  obtain ⟨v, r7⟩ := pr6
                  rw [h6] at h; simp only at h
                  obtain ⟨e6, hv, -, -⟩ := reqRunB_sound h6
                  cases h7 : reqChar (fun c => c = q) r7 with
                  | none => rw [h7] at h; simp at h
                  | some pr7 =>
                    obtain ⟨c7, r8⟩ := pr7
                    rw [h7] at h
                    simp only [Option.some.injEq, Prod.mk.injEq] at h
                    obtain ⟨hm, hr⟩ := h
                    subst hm; subst hr
                    obtain ⟨e7, hc7⟩ := reqChar_sound h7
                    have hc7' : c7 = q := by simpa using hc7
                    subst hc7'
                    constructor
                    · rw [e1, e2, e3, e4, e5, e6, e7, MatchParts.orig]
                      simp
                    · have h3l : ("sk-".toList).length = 3 := by decide
                      simp only [List.length_append, hsk, h3l]
                      omega
            · cases h5 : reqLitCI "sk-".toList (q :: r5) with
              | none => rw [h5] at h; simp at h
              | some pr5 =>
                obtain ⟨sk, r6⟩ := pr5
                rw [h5] at h; simp only at h
                obtain ⟨e5, hsk⟩ := reqLitCI_sound h5
                cases h6 : reqRunB isAlnum 8 48 r6 with
                | none => rw [h6] at h; simp at h
                | some pr6 =>
                  obtain ⟨v, r7⟩ := pr6
                  rw [h6] at h
                  simp only [Option.some.injEq, Prod.mk.injEq] at h
                  obtain ⟨hm, hr⟩ := h
                  subst hm; subst hr
                  obtain ⟨e6, hv, -, -⟩ := reqRunB_sound h6
                  constructor
                  · rw [e1, e2, e3, e4, e5, e6, MatchParts.orig]
                    simp
                  · have h3l : ("sk-".toList).length = 3 := by decide
                    simp only [List.length_append, hsk, h3l]
                    omega

theorem matchKV2_sound {s : List Char} {m : MatchParts} {rest : List Char}
    (h : matchKV2 s = some (m, rest)) :
    s = m.orig ++ rest ∧ 11 ≤ m.gone.length := by
  rw [matchKV2] at h
  cases h1 : reqLitCI "export".toList s with
  | none => rw [h1] at h; simp only at h; exact kv2Core_sound h
  | some pr1 =>
    obtain ⟨ex, r1⟩ := pr1
    rw [h1] at h; simp only at h
    obtain ⟨e1, -⟩ := reqLitCI_sound h1
    cases h2 : reqRun isPySpace 1 r1 with
    | none => rw [h2] at h; simp only at h; exact kv2Core_sound h
    | some pr2 =>
      obtain ⟨sp, r2⟩ := pr2
      rw [h2] at h; simp only at h
      obtain ⟨e2, -, -⟩ := reqRun_sound h2
      cases h3 : kv2Core r2 with
      | none => rw [h3] at h; simp only at h; exact kv2Core_sound h
      | some pr3 =>
        obtain ⟨mc, rc⟩ := pr3
        rw [h3] at h
        simp only [Option.some.injEq, Prod.mk.injEq] at h
        obtain ⟨hm, hr⟩ := h
        subst hm; subst hr
        obtain ⟨e3, hg⟩ := kv2Core_sound h3
        refine ⟨?_, hg⟩
        rw [e1, e2, e3, MatchParts.orig, MatchParts.orig]
        simp

/-- Literal then a bounded greedy class run: regex `lit[c]{lo,hi}` (exact
counts are the `lo = hi` case).  Nothing after the run, so the greedy take of
`min hi` of the maximal run is the unique match. -/
def litThenB (lit : List Char) (p : Char → Bool) (lo hi : Nat) (s : List Char) :
    Option (List Char × List Char) :=
  match reqLit lit s with
  | none => none
  | some r1 =>
    match reqRunB p lo hi r1 with
    | none => none
    | some (v, r2) => some (lit ++ v, r2)

/-- Literal then an unbounded greedy class run: regex `lit[c]{lo,}`. -/
def litThenRun (lit : List Char) (p : Char → Bool) (lo : Nat) (s : List Char) :
    Option (List Char × List Char) :=
  match reqLit lit s with
  | none => none
  | some r1 =>
    match reqRun p lo r1 with
    | none => none
    | some (v, r2) => some (lit ++ v, r2)

theorem litThenB_sound {lit : List Char} {p : Char → Bool} {lo hi : Nat}
    {s tok rest : List Char} (h : litThenB lit p lo hi s = some (tok, rest)) :
    s = tok ++ rest ∧ lit.length + lo ≤ tok.length := by
  rw [litThenB] at h
  cases h1 : reqLit lit s with
  | none => rw [h1] at h; simp at h
  | some r1 =>
    rw [h1] at h; simp only at h
    have e1 := reqLit_sound h1
    cases h2 : reqRunB p lo hi r1 with
    | none => rw [h2] at h; simp at h
    | some pr2 =>
      obtain ⟨v, r2⟩ := pr2
      rw [h2] at h
      simp only [Option.some.injEq, Prod.mk.injEq] at h
      obtain ⟨hm, hr⟩ := h
      subst hm; subst hr
      obtain ⟨e2, hv, -, -⟩ := reqRunB_sound h2
      exact ⟨by rw [e1, e2]; simp, by simp only [List.length_append]; omega⟩

theorem litThenRun_sound {lit : List Char} {p : Char → Bool} {lo : Nat}
    {s tok rest : List Char} (h : litThenRun lit p lo s = some (tok, rest)) :
    s = tok ++ rest ∧ lit.length + lo ≤ tok.length := by
  rw [litThenRun] at h
  cases h1 : reqLit lit s with
  | none => rw [h1] at h; simp at h
  | some r1 =>
    rw [h1] at h; simp only at h
    have e1 := reqLit_sound h1
    cases h2 : reqRun p lo r1 with
    | none => rw [h2] at h; simp at h
    | some pr2 =>
      obtain ⟨v, r2⟩ := pr2
      rw [h2] at h
      simp only [Option.some.injEq, Prod.mk.injEq] at h
      obtain ⟨hm, hr⟩ := h
      subst hm; subst hr
      obtain ⟨e2, hv, -⟩ := reqRun_sound h2
      exact ⟨by rw [e1, e2]; simp, by simp only [List.length_append]; omega⟩

/-- Class `[A-Za-z0-9-]` of the Slack-token pattern. -/
def isAlnumDash (c : Char) : Bool := isAlnum c || c = '-'

/-- Pattern `xox[baprs]-[A-Za-z0-9-]{10,48}`. -/
def pXox (s : List Char) : Option (List Char × List Char) :=
  match reqLit "xox".toList s with
  | none => none
  | some r1 =>
    match reqChar (fun c => c = 'b' || c = 'a' || c = 'p' || c = 'r' || c = 's') r1 with
    | none => none
    | some (k, r2) =>
      match reqChar (fun c => c = '-') r2 with
      | none => none
      | some (_, r3) =>
        match reqRunB isAlnumDash 10 48 r3 with
        | none => none
        | some (v, r4) => some ("xox".toList ++ k :: '-' :: v, r4)

theorem pXox_sound {s tok rest : List Char} (h : pXox s = some (tok, rest)) :
    s = tok ++ rest ∧ 15 ≤ tok.length := by
  rw [pXox] at h
  cases h1 : reqLit "xox".toList s with
  | none => rw [h1] at h; simp at h
  | some r1 =>
    rw [h1] at h; simp only at h
    have e1 := reqLit_sound h1
    cases h2 : reqChar (fun c => c = 'b' || c = 'a' || c = 'p' || c = 'r' || c = 's') r1 with
    | none => rw [h2] at h; simp at h
    | some pr2 =>
      obtain ⟨k, r2⟩ := pr2
      rw [h2] at h; simp only at h
      obtain ⟨e2, -⟩ := reqChar_sound h2
      cases h3 : reqChar (fun c => c = '-') r2 with
      | none => rw [h3] at h; simp at h
      | some pr3 =>
        obtain ⟨d, r3⟩ := pr3
        rw [h3] at h; simp only at h
        obtain ⟨e3, hd⟩ := reqChar_sound h3
        have hd' : d = '-' := by simpa using hd
        subst hd'
        cases h4 : reqRunB isAlnumDash 10 48 r3 with
        | none => rw [h4] at h; simp at h
        | some pr4 =>
          obtain ⟨v, r4⟩ := pr4
          rw [h4] at h
          simp only [Option.some.injEq, Prod.mk.injEq] at h
          obtain ⟨hm, hr⟩ := h
          subst hm; subst hr
          obtain ⟨e4, hv, -, -⟩ := reqRunB_sound h4
          constructor
          · rw [e1, e2, e3, e4]; simp
          · simp only [List.length_append, List.length_cons]
            have : ("xox".toList).length = 3 := by decide
            omega

/-- Pattern `(?i:Bearer\s+[A-Za-z0-9\-\._=]{20,})`. -/
def pBearer (s : List Char) : Option (List Char × List Char) :=
  match reqLitCI "bearer".toList s with
  | none => none
  | some (br, r1) =>
    match reqRun isPySpace 1 r1 with
    | none => none
    | some (sp, r2) =>
      match reqRun isBearerChar 20 r2 with
      | none => none
      | some (v, r3) => some (br ++ sp ++ v, r3)

theorem pBearer_sound {s tok rest : List Char} (h : pBearer s = some (tok, rest)) :
    s = tok ++ rest ∧ 27 ≤ tok.length := by
  rw [pBearer] at h
  cases h1 : reqLitCI "bearer".toList s with
  | none => rw [h1] at h; simp at h
  | some pr1 =>
    obtain ⟨br, r1⟩ := pr1
    rw [h1] at h; simp only at h
    obtain ⟨e1, hbr⟩ := reqLitCI_sound h1
    cases h2 : reqRun isPySpace 1 r1 with
    | none => rw [h2] at h; simp at h
    | some pr2 =>
      obtain ⟨sp, r2⟩ := pr2
      rw [h2] at h; simp only at h
      obtain ⟨e2, hsp, -⟩ := reqRun_sound h2
      cases h3 : reqRun isBearerChar 20 r2 with
      | none => rw [h3] at h; simp at h
      | some pr3 =>
        obtain ⟨v, r3⟩ := pr3
        rw [h3] at h
        simp only [Option.some.injEq, Prod.mk.injEq] at h
        obtain ⟨hm, hr⟩ := h
        subst hm; subst hr
        obtain ⟨e3, hv, -⟩ := reqRun_sound h3
        constructor
        · rw [e1, e2, e3]; simp
        · simp only [List.length_append]
          have : ("bearer".toList).length = 6 := by decide
          omega

/-- Whether an optional character (string edge = `none`) is a word character. -/
def isWordOpt : Option Char → Bool
  | some c => isWordChar c
  | none => false

/-- The `\b` assertion between two neighbouring positions. -/
def wordB (a b : Option Char) : Bool := isWordOpt a != isWordOpt b

/-- The `(?<![A-Za-z0-9_-])` lookbehind. -/
def noWdBefore : Option Char → Bool
  | some c => !isWdChar c
  | none => true

/-- Whether an optional character is in `[A-Za-z0-9_-]` (for the lookahead). -/
def isWdOpt : Option Char → Bool
  | some c => isWdChar c
  | none => false

/-- Character after cutting `k` characters from `run`, `nxt` past its end. -/
def charAfter (run : List Char) (nxt : Option Char) (k : Nat) : Option Char :=
  match run[k]? with
  | some c => some c
  | none => nxt

/-- Largest `k ≤ fuel` with `8 ≤ k` such that a word boundary holds after the
first `k` characters of `run`: the backtracking of the trailing
`[A-Za-z0-9_-]{8,}\b` of the JWT patterns, which can only retreat over
trailing hyphens. -/
def bestK (run : List Char) (nxt : Option Char) : Nat → Option Nat
  | 0 => none
  | k + 1 =>
      if 8 ≤ k + 1 && wordB run[k]? (charAfter run nxt (k + 1)) then some (k + 1)
      else bestK run nxt k

theorem bestK_sound {run : List Char} {nxt : Option Char} :
    ∀ {f k : Nat}, bestK run nxt f = some k → 8 ≤ k ∧ k ≤ f := by
  intro f
  induction f with
  | zero => intro k h; rw [bestK] at h; cases h
  | succ f ih =>
      intro k h
      rw [bestK] at h
      split at h
      · cases h
        rename_i hcond
        simp only [Bool.and_eq_true, decide_eq_true_eq] at hcond
        exact ⟨by omega, Nat.le_refl _⟩
      · obtain ⟨h1, h2⟩ := ih h
        exact ⟨h1, Nat.le_succ_of_le h2⟩

/-- Shared front `[A-Za-z0-9_-]{10,}\.[A-Za-z0-9_-]{10,}` of the JWT-shaped
patterns: the two leading segments and the rest after the second segment. -/
def jwt2Segs (s : List Char) : Option (List Char × List Char × List Char) :=
  match reqRun isWdChar 10 s with
  | none => none
  | some (a, r1) =>
    match reqChar (fun c => c = '.') r1 with
    | none => none
    | some (_, r2) =>
      match reqRun isWdChar 10 r2 with
      | none => none
      | some (b, r3) => some (a, b, r3)

theorem jwt2Segs_sound {s a b r3 : List Char} (h : jwt2Segs s = some (a, b, r3)) :
    s = a ++ '.' :: b ++ r3 ∧ 10 ≤ a.length ∧ 10 ≤ b.length := by
  rw [jwt2Segs] at h
  cases h1 : reqRun isWdChar 10 s with
  | none => rw [h1] at h; simp at h
  | some pr1 =>
    obtain ⟨a', r1⟩ := pr1
    rw [h1] at h; simp only at h
    obtain ⟨e1, ha, -⟩ := reqRun_sound h1
    cases h2 : reqChar (fun c => c = '.') r1 with
    | none => rw [h2] at h; simp at h
    | some pr2 =>
      obtain ⟨d, r2⟩ := pr2
      rw [h2] at h; simp only at h
      obtain ⟨e2, hd⟩ := reqChar_sound h2
      have hd' : d = '.' := by simpa using hd
      subst hd'
      cases h3 : reqRun isWdChar 10 r2 with
      | none => rw [h3] at h; simp at h
      | some pr3 =>
        obtain ⟨b', r3'⟩ := pr3
        rw [h3] at h
        simp only [Option.some.injEq, Prod.mk.injEq] at h
        obtain ⟨ha', hb', hr'⟩ := h
        subst ha'; subst hb'; subst hr'
        obtain ⟨e3, hb, -⟩ := reqRun_sound h3
        exact ⟨by rw [e1, e2, e3]; simp, ha, hb⟩

/-- Pattern `\b[A-Za-z0-9_-]{10,}\.[A-Za-z0-9_-]{10,}\.[A-Za-z0-9_-]{8,}\b`. -/
def pJwt3B (prev : Option Char) (s : List Char) : Option (List Char × List Char) :=
  if wordB prev s.head? then
    match jwt2Segs s with
    | none => none
    | some (a, b, r3) =>
      match reqChar (fun c => c = '.') r3 with
      | none => none
      | some (_, r4) =>
        match bestK (r4.takeWhile isWdChar) ((r4.dropWhile isWdChar).head?)
            (r4.takeWhile isWdChar).length with
        | none => none
        | some k => some (a ++ '.' :: b ++ '.' :: r4.take k, r4.drop k)
  else none

/-- Pattern `\beyJ[A-Za-z0-9_-]{10,}\.[A-Za-z0-9_-]{10,}\.[A-Za-z0-9_-]{8,}\b`. -/
def pJwt3eyJB (prev : Option Char) (s : List Char) : Option (List Char × List Char) :=
  if wordB prev s.head? then
    match reqLit "eyJ".toList s with
    | none => none
    | some r0 =>
      match jwt2Segs r0 with
      | none => none
      | some (a, b, r3) =>
        match reqChar (fun c => c = '.') r3 with
        | none => none
        | some (_, r4) =>
          match bestK (r4.takeWhile isWdChar) ((r4.dropWhile isWdChar).head?)
              (r4.takeWhile isWdChar).length with
          | none => none
          | some k => some ("eyJ".toList ++ a ++ '.' :: b ++ '.' :: r4.take k, r4.drop k)
  else none

/-- Pattern
`(?<![A-Za-z0-9_-])eyJ[A-Za-z0-9_-]{10,}\.[A-Za-z0-9_-]{10,}\.[A-Za-z0-9_-]{8,}(?![A-Za-z0-9_-])`.
The greedy maximal third segment satisfies the lookahead by maximality. -/
def pJwt3NoLB (prev : Option Char) (s : List Char) : Option (List Char × List Char) :=
  if noWdBefore prev then
    match reqLit "eyJ".toList s with
    | none => none
    | some r0 =>
      match jwt2Segs r0 with
      | none => none
      | some (a, b, r3) =>
        match reqChar (fun c => c = '.') r3 with
        | none => none
        | some (_, r4) =>
          match reqRun isWdChar 8 r4 with
          | none => none
          | some (c3, r5) => some ("eyJ".toList ++ a ++ '.' :: b ++ '.' :: c3, r5)
  else none

/-- Pattern `(?<![A-Za-z0-9_-])sk-[A-Za-z0-9]{8,19}(?![A-Za-z0-9_-])`: the
maximal alphanumeric run must fit the counter and the lookahead, since
shrinking it only exposes an alphanumeric (word) character. -/
def pSkShort (prev : Option Char) (s : List Char) : Option (List Char × List Char) :=
  if noWdBefore prev then
    match reqLit "sk-".toList s with
    | none => none
    | some r1 =>
      match reqRun isAlnum 8 r1 with
      | none => none
      | some (v, r2) =>
          if v.length ≤ 19 && !isWdOpt r2.head? then
            some ("sk-".toList ++ v, r2)
          else none
  else none

/-- Pattern
`(?<![A-Za-z0-9_-])eyJ[A-Za-z0-9_-]{10,}\.[A-Za-z0-9_-]{10,}(?:\.[A-Za-z0-9_-]{8,})?(?![A-Za-z0-9_-])`:
the optional third segment is preferred; without it the character after the
maximal second segment is not in the class, so the lookahead holds. -/
def pJwt2Opt (prev : Option Char) (s : List Char) : Option (List Char × List Char) :=
  if noWdBefore prev then
    match reqLit "eyJ".toList s with
    | none => none
    | some r0 =>
      match jwt2Segs r0 with
      | none => none
      | some (a, b, r3) =>
        match reqChar (fun c => c = '.') r3 with
        | none => some ("eyJ".toList ++ a ++ '.' :: b, r3)
        | some (_, r4) =>
          match reqRun isWdChar 8 r4 with
          | none => some ("eyJ".toList ++ a ++ '.' :: b, r3)
          | some (c3, r5) => some ("eyJ".toList ++ a ++ '.' :: b ++ '.' :: c3, r5)
  else none

theorem pJwt3B_sound {prev : Option Char} {s tok rest : List Char}
    (h : pJwt3B prev s = some (tok, rest)) : s = tok ++ rest ∧ 30 ≤ tok.length := by
  rw [pJwt3B] at h
  split at h
  case isFalse => cases h
  case isTrue =>
    cases h1 : jwt2Segs s with
    | none => rw [h1] at h; simp at h
    | some tr =>
      obtain ⟨a, b, r3⟩ := tr
      rw [h1] at h; simp only at h
      obtain ⟨e1, ha, hb⟩ := jwt2Segs_sound h1
      cases h2 : reqChar (fun c => c = '.') r3 with
      | none => rw [h2] at h; simp at h
      | some pr2 =>
        obtain ⟨d, r4⟩ := pr2
        rw [h2] at h; simp only at h
        obtain ⟨e2, hd⟩ := reqChar_sound h2
        have hd' : d = '.' := by simpa using hd
        subst hd'
        cases h3 : bestK (r4.takeWhile isWdChar) ((r4.dropWhile isWdChar).head?)
            (r4.takeWhile isWdChar).length with
        | none => rw [h3] at h; simp at h
        | some k =>
          rw [h3] at h
          simp only [Option.some.injEq, Prod.mk.injEq] at h
          obtain ⟨hm, hr⟩ := h
          subst hm; subst hr
          obtain ⟨hk8, hkle⟩ := bestK_sound h3
          have hkr4 : k ≤ r4.length :=
            le_trans hkle (List.takeWhile_prefix (p := isWdChar)).length_le
          constructor
          · rw [e1, e2]
            simp [List.take_append_drop]
          · have htk : (r4.take k).length = k := by
              rw [List.length_take]; omega
            simp only [List.length_append, List.length_cons, htk]
            omega

theorem pJwt3eyJB_sound {prev : Option Char} {s tok rest : List Char}
    (h : pJwt3eyJB prev s = some (tok, rest)) : s = tok ++ rest ∧ 33 ≤ tok.length := by
  rw [pJwt3eyJB] at h
  split at h
  case isFalse => cases h
  case isTrue =>
    cases h0 : reqLit "eyJ".toList s with
    | none => rw [h0] at h; simp at h
    | some r0 =>
      rw [h0] at h; simp only at h
      have e0 := reqLit_sound h0
      cases h1 : jwt2Segs r0 with
      | none => rw [h1] at h; simp at h
      | some tr =>
        obtain ⟨a, b, r3⟩ := tr
        rw [h1] at h; simp only at h
        obtain ⟨e1, ha, hb⟩ := jwt2Segs_sound h1
        cases h2 : reqChar (fun c => c = '.') r3 with
        | none => rw [h2] at h; simp at h
        | some pr2 =>
          obtain ⟨d, r4⟩ := pr2
          rw [h2] at h; simp only at h
          obtain ⟨e2, hd⟩ := reqChar_sound h2
          have hd' : d = '.' := by simpa using hd
          subst hd'
          cases h3 : bestK (r4.takeWhile isWdChar) ((r4.dropWhile isWdChar).head?)
              (r4.takeWhile isWdChar).length with
          | none => rw [h3] at h; simp at h
          | some k =>
            rw [h3] at h
            simp only [Option.some.injEq, Prod.mk.injEq] at h
            obtain ⟨hm, hr⟩ := h
            subst hm; subst hr
            obtain ⟨hk8, hkle⟩ := bestK_sound h3
            have hkr4 : k ≤ r4.length :=
              le_trans hkle (List.takeWhile_prefix (p := isWdChar)).length_le
            constructor
            · rw [e0, e1, e2]
              simp [List.take_append_drop]
            · have htk : (r4.take k).length = k := by
                rw [List.length_take]; omega
              have h3l : ("eyJ".toList).length = 3 := by decide
              simp only [List.length_append, List.length_cons, htk, h3l]
              omega

theorem pJwt3NoLB_sound {prev : Option Char} {s tok rest : List Char}
    (h : pJwt3NoLB prev s = some (tok, rest)) : s = tok ++ rest ∧ 33 ≤ tok.length := by
  rw [pJwt3NoLB] at h
  split at h
  case isFalse => cases h
  case isTrue =>
    cases h0 : reqLit "eyJ".toList s with
    | none => rw [h0] at h; simp at h
    | some r0 =>
      rw [h0] at h; simp only at h
      have e0 := reqLit_sound h0
      cases h1 : jwt2Segs r0 with
      | none => rw [h1] at h; simp at h
      | some tr =>
        obtain ⟨a, b, r3⟩ := tr
        rw [h1] at h; simp only at h
        obtain ⟨e1, ha, hb⟩ := jwt2Segs_sound h1
        cases h2 : reqChar (fun c => c = '.') r3 with
        | none => rw [h2] at h; simp at h
        | some pr2 =>
          obtain ⟨d, r4⟩ := pr2
          rw [h2] at h; simp only at h
          obtain ⟨e2, hd⟩ := reqChar_sound h2
          have hd' : d = '.' := by simpa using hd
          subst hd'
          cases h3 : reqRun isWdChar 8 r4 with
          | none => rw [h3] at h; simp at h
          | some pr3 =>
            obtain ⟨c3, r5⟩ := pr3
            rw [h3] at h
            simp only [Option.some.injEq, Prod.mk.injEq] at h
            obtain ⟨hm, hr⟩ := h
            subst hm; subst hr
            obtain ⟨e3, hc3, -⟩ := reqRun_sound h3
            constructor
            · rw [e0, e1, e2, e3]; simp
            · have h3l : ("eyJ".toList).length = 3 := by decide
              simp only [List.length_append, List.length_cons, h3l]
              omega

theorem pSkShort_sound {prev : Option Char} {s tok rest : List Char}
    (h : pSkShort prev s = some (tok, rest)) : s = tok ++ rest ∧ 11 ≤ tok.length := by
  rw [pSkShort] at h
  split at h
  case isFalse => cases h
  case isTrue =>
    cases h1 : reqLit "sk-".toList s with
    | none => rw [h1] at h; simp at h
    | some r1 =>
      rw [h1] at h; simp only at h
      have e1 := reqLit_sound h1
      cases h2 : reqRun isAlnum 8 r1 with
      | none => rw [h2] at h; simp at h
      | some pr2 =>
        obtain ⟨v, r2⟩ := pr2
        rw [h2] at h; simp only at h
        obtain ⟨e2, hv, -⟩ := reqRun_sound h2
        split at h
        · simp only [Option.some.injEq, Prod.mk.injEq] at h
          obtain ⟨hm, hr⟩ := h
          subst hm; subst hr
          constructor
          · rw [e1, e2]; simp
          · have h3l : ("sk-".toList).length = 3 := by decide
            simp only [List.length_append, h3l]
            omega
        · cases h

theorem pJwt2Opt_sound {prev : Option Char} {s tok rest : List Char}
    (h : pJwt2Opt prev s = some (tok, rest)) : s = tok ++ rest ∧ 24 ≤ tok.length := by
  rw [pJwt2Opt] at h
  split at h
  case isFalse => cases h
  case isTrue =>
    cases h0 : reqLit "eyJ".toList s with
    | none => rw [h0] at h; simp at h
    | some r0 =>
      rw [h0] at h; simp only at h
      have e0 := reqLit_sound h0
      cases h1 : jwt2Segs r0 with
      | none => rw [h1] at h; simp at h
      | some tr =>
        obtain ⟨a, b, r3⟩ := tr
        rw [h1] at h; simp only at h
        obtain ⟨e1, ha, hb⟩ := jwt2Segs_sound h1
        have h3l : ("eyJ".toList).length = 3 := by decide
        cases h2 : reqChar (fun c => c = '.') r3 with
        | none =>
            rw [h2] at h
            simp only [Option.some.injEq, Prod.mk.injEq] at h
            obtain ⟨hm, hr⟩ := h
            subst hm; subst hr
            constructor
            · rw [e0, e1]; simp
            · simp only [List.length_append, List.length_cons, h3l]
              omega
        | some pr2 =>
          obtain ⟨d, r4⟩ := pr2
          rw [h2] at h; simp only at h
          obtain ⟨e2, hd⟩ := reqChar_sound h2
          have hd' : d = '.' := by simpa using hd
          subst hd'
          cases h3 : reqRun isWdChar 8 r4 with
          | none =>
              rw [h3] at h
              simp only [Option.some.injEq, Prod.mk.injEq] at h
              obtain ⟨hm, hr⟩ := h
              subst hm; subst hr
              constructor
              · rw [e0, e1]; simp
              · simp only [List.length_append, List.length_cons, h3l]
                omega
          | some pr3 =>
              obtain ⟨c3, r5⟩ := pr3
              rw [h3] at h
              simp only [Option.some.injEq, Prod.mk.injEq] at h
              obtain ⟨hm, hr⟩ := h
              subst hm; subst hr
              obtain ⟨e3, hc3, -⟩ := reqRun_sound h3
              constructor
              · rw [e0, e1, e2, e3]; simp
              · simp only [List.length_append, List.length_cons, h3l]
                omega

/-- First alternative of a regex alternation that matches (Python `|` prefers
the leftmost matching alternative, not the longest match). -/
def firstSome : List (Option α) → Option α
  | [] => none
  | some x :: _ => some x
  | none :: rest => firstSome rest

theorem firstSome_mem : ∀ {l : List (Option α)} {x : α},
    firstSome l = some x → some x ∈ l := by
  intro l
  induction l with
  | nil => intro x h; cases h
  | cons o rest ih =>
      intro x h
      match o with
      | some y => rw [firstSome] at h; cases h; exact List.mem_cons_self _ _
      | none => rw [firstSome] at h; exact List.mem_cons_of_mem _ (ih h)

/-- The compiled union of `SECRET_TOKEN_PATTERNS`
(`'|'.join(f'(?:p)' ...)`), tried in order at one position. -/
def matchBlanket (prev : Option Char) (s : List Char) :
    Option (MatchParts × List Char) :=
  match firstSome
      [litThenB "AKIA".toList isUpperDigit 16 16 s,
       litThenB "ASIA".toList isUpperDigit 16 16 s,
       litThenB "AIza".toList isWdChar 35 35 s,
       litThenB "ghp_".toList isAlnum 36 36 s,
       litThenB "github_pat_".toList isWordChar 82 82 s,
       pXox s,
       litThenRun "sk_live_".toList isAlnum 24 s,
       litThenB "sk-".toList isAlnum 20 48 s,
       pBearer s,
       pJwt3B prev s,
       pJwt3eyJB prev s,
       pJwt3NoLB prev s,
       pSkShort prev s,
       pJwt2Opt prev s] with
  | some (tok, rest) => some (⟨[], tok, []⟩, rest)
  | none => none

theorem matchBlanket_sound {prev : Option Char} {s : List Char}
    {m : MatchParts} {rest : List Char}
    (h : matchBlanket prev s = some (m, rest)) :
    s = m.orig ++ rest ∧ 11 ≤ m.gone.length ∧ m.keep1 = [] ∧ m.keep2 = [] := by
  rw [matchBlanket] at h
  cases hf : firstSome
      [litThenB "AKIA".toList isUpperDigit 16 16 s,
       litThenB "ASIA".toList isUpperDigit 16 16 s,
       litThenB "AIza".toList isWdChar 35 35 s,
       litThenB "ghp_".toList isAlnum 36 36 s,
       litThenB "github_pat_".toList isWordChar 82 82 s,
       pXox s,
       litThenRun "sk_live_".toList isAlnum 24 s,
       litThenB "sk-".toList isAlnum 20 48 s,
       pBearer s,
       pJwt3B prev s,
       pJwt3eyJB prev s,
       pJwt3NoLB prev s,
       pSkShort prev s,
       pJwt2Opt prev s] with
  | none => rw [hf] at h; simp at h
  | some pr =>
    obtain ⟨tok, rst⟩ := pr
    rw [hf] at h
    simp only [Option.some.injEq, Prod.mk.injEq] at h
    obtain ⟨hm, hr⟩ := h
    subst hm; subst hr
    have hmem := firstSome_mem hf
    have hout : s = tok ++ rst ∧ 11 ≤ tok.length := by
      simp only [List.mem_cons, List.not_mem_nil, or_false] at hmem
      rcases hmem with h | h | h | h | h | h | h | h | h | h | h | h | h | h
      · obtain ⟨e, hl⟩ := litThenB_sound h.symm
        exact ⟨e, by
          have h4 : ("AKIA".toList).length = 4 := by decide
          omega⟩
      · obtain ⟨e, hl⟩ := litThenB_sound h.symm
        exact ⟨e, by
          have h4 : ("ASIA".toList).length = 4 := by decide
          omega⟩
      · obtain ⟨e, hl⟩ := litThenB_sound h.symm
        exact ⟨e, by
          have h4 : ("AIza".toList).length = 4 := by decide
          omega⟩
      · obtain ⟨e, hl⟩ := litThenB_sound h.symm
        exact ⟨e, by
          have h4 : ("ghp_".toList).length = 4 := by decide
          omega⟩
      · obtain ⟨e, hl⟩ := litThenB_sound h.symm
        exact ⟨e, by
          have h4 : ("github_pat_".toList).length = 11 := by decide
          omega⟩
      · obtain ⟨e, hl⟩ := pXox_sound h.symm
        exact ⟨e, by omega⟩
      · obtain ⟨e, hl⟩ := litThenRun_sound h.symm
        exact ⟨e, by
          have h4 : ("sk_live_".toList).length = 8 := by decide
          omega⟩
      · obtain ⟨e, hl⟩ := litThenB_sound h.symm
        exact ⟨e, by
          have h4 : ("sk-".toList).length = 3 := by decide
          omega⟩
      · obtain ⟨e, hl⟩ := pBearer_sound h.symm
        exact ⟨e, by omega⟩
      · obtain ⟨e, hl⟩ := pJwt3B_sound h.symm
        exact ⟨e, by omega⟩
      · obtain ⟨e, hl⟩ := pJwt3eyJB_sound h.symm
        exact ⟨e, by omega⟩
      · obtain ⟨e, hl⟩ := pJwt3NoLB_sound h.symm
        exact ⟨e, by omega⟩
      · obtain ⟨e, hl⟩ := pSkShort_sound h.symm
        exact ⟨e, by omega⟩
      · obtain ⟨e, hl⟩ := pJwt2Opt_sound h.symm
        exact ⟨e, by omega⟩
    exact ⟨by rw [hout.1]; simp [MatchParts.orig], hout.2, rfl, rfl⟩

/-- The three substitution passes of `_sanitize_text` as position matchers. -/
def kv1M : SubMatcher := fun _ s => matchKV1 s

/-- Second key/value pattern as a position matcher. -/
def kv2M : SubMatcher := fun _ s => matchKV2 s

/-- Blanket token union as a position matcher. -/
def blanketM : SubMatcher := fun prev s => matchBlanket prev s

theorem kv1M_ok : MatcherOK kv1M := by
  intro prev s m rest h
  obtain ⟨e, hl⟩ := matchKV1_sound h
  exact ⟨e, by omega⟩

theorem kv2M_ok : MatcherOK kv2M := by
  intro prev s m rest h
  obtain ⟨e, hl⟩ := matchKV2_sound h
  exact ⟨e, by omega⟩

theorem blanketM_ok : MatcherOK blanketM := by
  intro prev s m rest h
  obtain ⟨e, hl, -, -⟩ := matchBlanket_sound h
  exact ⟨e, by omega⟩

/-- The `_sanitize_text` function of `RepoHelpers.py`: the two key/value
passes (each `rx.sub(repl, s)` with the `changed` flag set by any match or by
an output differing from the input), then the blanket token-union pass. -/
def sanitizeText (s : List Char) : List Char × Bool :=
  let segs1 := subSegs kv1M s.length none s
  let o1 := catOut segs1
  let c1 := hasHit segs1 || o1 != s
  let segs2 := subSegs kv2M o1.length none o1
  let o2 := catOut segs2
  let c2 := c1 || hasHit segs2 || o2 != o1
  let segs3 := subSegs blanketM o2.length none o2
  let o3 := catOut segs3
  let c3 := c2 || o3 != o2
  (o3, c3)

theorem sanitizeText_eq (s : List Char) :
    sanitizeText s =
      (pySub blanketM (pySub kv2M (pySub kv1M s)),
       ((hasHit (subSegs kv1M s.length none s) || (pySub kv1M s != s))
         || hasHit (subSegs kv2M (pySub kv1M s).length none (pySub kv1M s))
         || (pySub kv2M (pySub kv1M s) != pySub kv1M s))
        || (pySub blanketM (pySub kv2M (pySub kv1M s)) != pySub kv2M (pySub kv1M s))) :=
  rfl

theorem sanitizeText_snd_iff (s : List Char) :
    (sanitizeText s).2 = true ↔
      (pySub kv1M s ≠ s ∨ pySub kv2M (pySub kv1M s) ≠ pySub kv1M s ∨
       pySub blanketM (pySub kv2M (pySub kv1M s)) ≠ pySub kv2M (pySub kv1M s)) := by
  rw [sanitizeText_eq]
  simp only [Bool.or_eq_true, bne_iff_ne]
  rw [← pySub_ne_iff kv1M_ok s, ← pySub_ne_iff kv2M_ok (pySub kv1M s)]
  tauto

theorem sanitizeText_changed_iff (s : List Char) :
    (sanitizeText s).2 = true ↔ (sanitizeText s).1 ≠ s := by
  rw [sanitizeText_snd_iff]
  have hfst : (sanitizeText s).1 = pySub blanketM (pySub kv2M (pySub kv1M s)) := by
    rw [sanitizeText_eq]
  rw [hfst]
  have le1 := pySub_length_le kv1M_ok s
  have le2 := pySub_length_le kv2M_ok (pySub kv1M s)
  have le3 := pySub_length_le blanketM_ok (pySub kv2M (pySub kv1M s))
  constructor
  · intro hne
    have hlt : (pySub blanketM (pySub kv2M (pySub kv1M s))).length < s.length := by
      rcases hne with h | h | h
      · have := pySub_lt_of_ne kv1M_ok s h
        omega
      · have := pySub_lt_of_ne kv2M_ok _ h
        omega
      · have := pySub_lt_of_ne blanketM_ok _ h
        omega
    intro heq
    rw [heq] at hlt
    exact Nat.lt_irrefl _ hlt
  · intro hne
    by_cases h1 : pySub kv1M s = s
    · by_cases h2 : pySub kv2M (pySub kv1M s) = pySub kv1M s
      · by_cases h3 : pySub blanketM (pySub kv2M (pySub kv1M s)) = pySub kv2M (pySub kv1M s)
        · exact absurd (by rw [h3, h2, h1]) hne
        · exact Or.inr (Or.inr h3)
      · exact Or.inr (Or.inl h2)
    · exact Or.inl h1

theorem sanitizeText_fst_shrinks (s : List Char)
    (h : (sanitizeText s).1 ≠ s) : ((sanitizeText s).1).length < s.length := by
  have hch := (sanitizeText_changed_iff s).mpr h
  have hne := (sanitizeText_snd_iff s).mp hch
  have hfst : (sanitizeText s).1 = pySub blanketM (pySub kv2M (pySub kv1M s)) := by
    rw [sanitizeText_eq]
  have le2 := pySub_length_le kv2M_ok (pySub kv1M s)
  have le3 := pySub_length_le blanketM_ok (pySub kv2M (pySub kv1M s))
  have le1 := pySub_length_le kv1M_ok s
  rw [hfst]
  rcases hne with h' | h' | h'
  · have := pySub_lt_of_ne kv1M_ok s h'
    omega
  · have := pySub_lt_of_ne kv2M_ok _ h'
    omega
  · have := pySub_lt_of_ne blanketM_ok _ h'
    omega

/-- Structure of every match of the first key/value pattern: a key of at
least two key-class characters, optional whitespace, a `:` or `=` operator,
optional whitespace and an optional quote — all preserved in `keep1` — around
a replaced value of at least 16 value-class characters, with the closing
quote (`keep2`) equal to the opening one. -/
def KVShape (m : MatchParts) : Prop :=
  ∃ key sp1 sp2 q, ∃ op : Char,
    m.keep1 = key ++ sp1 ++ op :: sp2 ++ q ∧
    m.keep2 = q ∧
    2 ≤ key.length ∧ (∀ c ∈ key, isKeyChar c) ∧
    (∀ c ∈ sp1, isPySpace c) ∧ (∀ c ∈ sp2, isPySpace c) ∧
    (op = ':' ∨ op = '=') ∧
    (q = [] ∨ q = ['"'] ∨ q = [sQuote]) ∧
    16 ≤ m.gone.length ∧ (∀ c ∈ m.gone, isValChar c)

theorem matchKV1_shape {s : List Char} {m : MatchParts} {rest : List Char}
    (h : matchKV1 s = some (m, rest)) : KVShape m := by
  rw [matchKV1] at h
  cases h1 : reqRun isKeyChar 2 s with
  | none => rw [h1] at h; simp at h
  | some pr1 =>
    obtain ⟨key, r1⟩ := pr1
    rw [h1] at h; simp only at h
    obtain ⟨-, hk2, hkc⟩ := reqRun_sound h1
    cases h2 : reqRun isPySpace 0 r1 with
    | none => rw [h2] at h; simp at h
    | some pr2 =>
      obtain ⟨sp1, r2⟩ := pr2
      rw [h2] at h; simp only at h
      obtain ⟨-, -, hsp1⟩ := reqRun_sound h2
      cases h3 : reqChar (fun c => c = ':' || c = '=') r2 with
      | none => rw [h3] at h; simp at h
      | some pr3 =>
        obtain ⟨op, r3⟩ := pr3
        rw [h3] at h; simp only at h
        obtain ⟨-, hop⟩ := reqChar_sound h3
        have hop' : op = ':' ∨ op = '=' := by
          simpa [Bool.or_eq_true, decide_eq_true_eq] using hop
        cases h4 : reqRun isPySpace 0 r3 with
        | none => rw [h4] at h; simp at h
        | some pr4 =>
          obtain ⟨sp2, r4⟩ := pr4
          rw [h4] at h; simp only at h
          obtain ⟨-, -, hsp2⟩ := reqRun_sound h4
          match r4 with
          | [] => simp at h
          | q :: r5 =>
            simp only at h
            split at h
            case isTrue hq =>
              cases h5 : reqRun isValChar 16 r5 with
              | none => rw [h5] at h; simp at h
              | some pr5 =>
                obtain ⟨v, r6⟩ := pr5
                rw [h5] at h; simp only at h
                obtain ⟨-, hv, hvc⟩ := reqRun_sound h5
                cases h6 : reqChar (fun c => c = q) r6 with
                | none => rw [h6] at h; simp at h
                | some pr6 =>
                  obtain ⟨c6, r7⟩ := pr6
                  rw [h6] at h
                  simp only [Option.some.injEq, Prod.mk.injEq] at h
                  obtain ⟨hm, hr⟩ := h
                  subst hm; subst hr
                  have hq' : q = '"' ∨ q = sQuote := by
                    simpa [Bool.or_eq_true, decide_eq_true_eq] using hq
                  refine ⟨key, sp1, sp2, [q], op, by simp, rfl, hk2, hkc,
                    hsp1, hsp2, hop', ?_, hv, hvc⟩
                  rcases hq' with h | h
                  · right; left; rw [h]
                  · right; right; rw [h]
            case isFalse hq =>
              cases h5 : reqRun isValChar 16 (q :: r5) with
              | none => rw [h5] at h; simp at h
              | some pr5 =>
                obtain ⟨v, r6⟩ := pr5
                rw [h5] at h
                simp only [Option.some.injEq, Prod.mk.injEq] at h
                obtain ⟨hm, hr⟩ := h
                subst hm; subst hr
                obtain ⟨-, hv, hvc⟩ := reqRun_sound h5
                exact ⟨key, sp1, sp2, [], op, by simp, rfl, hk2, hkc,
                  hsp1, hsp2, hop', Or.inl rfl, hv, hvc⟩

/-- C1: the first key/value pattern pass of `_sanitize_text` decomposes the
input into unmatched characters and matches; its output replaces exactly the
value group of each match with the redaction token while keeping the key, the
`:` or `=` operator and the quote characters (the shape of every match is
`KVShape`); any match makes `_sanitize_text` report `changed`; and on the
input line `OPENAI_KEY=sk-aaaaaaaaaaaaaaaaaaaaaaaaaaaaaaaa` the function
returns `OPENAI_KEY=api_key` with `changed = true`. -/
theorem claim1_kv_value_redaction :
    (∀ s : List Char,
      catOrig (subSegs kv1M s.length none s) = s ∧
      pySub kv1M s = catOut (subSegs kv1M s.length none s) ∧
      (∀ m, Seg.hit m ∈ subSegs kv1M s.length none s → KVShape m) ∧
      (hasHit (subSegs kv1M s.length none s) = true → (sanitizeText s).2 = true)) ∧
    sanitizeText ("OPENAI_KEY=sk-aaaaaaaaaaaaaaaaaaaaaaaaaaaaaaaa".toList)
      = ("OPENAI_KEY=api_key".toList, true) := by
  constructor
  · intro s
    refine ⟨subSegs_orig kv1M_ok s.length none s (Nat.le_refl _), rfl, ?_, ?_⟩
    · intro m hm
      exact subSegs_hits (P := KVShape)
        (fun prev s m rest h => matchKV1_shape h) s.length none s m hm
    · intro hh
      rw [sanitizeText_eq]
      simp only [Bool.or_eq_true]
      exact Or.inl (Or.inl (Or.inl (Or.inl hh)))
  · decide

/-- C10: the boolean returned by `_sanitize_text` reports modification
faithfully — `changed = true` exactly when the returned text differs from the
input. -/
theorem claim10_changed_faithful (s : List Char) :
    ((sanitizeText s).2 = true ↔ (sanitizeText s).1 ≠ s) ∧
    ((sanitizeText s).2 = false ↔ (sanitizeText s).1 = s) := by
  have h := sanitizeText_changed_iff s
  constructor
  · exact h
  · constructor
    · intro hf
      by_contra hne
      have := h.mpr hne
      rw [hf] at this
      cases this
    · intro heq
      cases hc : (sanitizeText s).2 with
      | false => rfl
      | true => exact absurd heq (h.mp hc)

/-- C3 counterexample: `_sanitize_text` is not idempotent.  On
`KK=aaaaaaaaaa.bbbbbbbbbb.cccccccc////////////` the blanket JWT pattern
removes the dotted token, splicing the short redaction token against the
following url-safe slashes; re-sanitizing that output matches the key/value
pattern again (`api_key////////////` is a 19-character value) and changes the
text a second time. -/
theorem claim3_idempotence_cex :
    sanitizeText ("KK=aaaaaaaaaa.bbbbbbbbbb.cccccccc////////////".toList)
      = ("KK=api_key////////////".toList, true) ∧
    sanitizeText ("KK=api_key////////////".toList)
      = ("KK=api_key".toList, true) ∧
    sanitizeText ("KK=api_key////////////".toList)
      ≠ ("KK=api_key////////////".toList, false) := by
  refine ⟨by decide, by decide, by decide⟩

/-- C3 amended: each application of `_sanitize_text` either returns its input
unchanged (with `changed = false`) or strictly shortens it, so iterating the
pass terminates in a fixed point; and the redaction token itself never
re-matches — the scenario output `OPENAI_KEY=api_key` is a fixed point. -/
theorem claim3_sanitize_shrinks_or_fixed :
    (∀ s : List Char,
      ((sanitizeText s).2 = false ∧ (sanitizeText s).1 = s) ∨
      ((sanitizeText s).2 = true ∧ ((sanitizeText s).1).length < s.length)) ∧
    sanitizeText ("OPENAI_KEY=api_key".toList)
      = ("OPENAI_KEY=api_key".toList, false) := by
  constructor
  · intro s
    cases hc : (sanitizeText s).2 with
    | false =>
        left
        refine ⟨rfl, ?_⟩
        by_contra hne
        have := (sanitizeText_changed_iff s).mpr hne
        rw [hc] at this
        cases this
    | true =>
        right
        exact ⟨rfl, sanitizeText_fst_shrinks s ((sanitizeText_changed_iff s).mp hc)⟩
  · decide

/-- Loop of `_chunk_text`: while `i < n` emit `(i, s[i:j])` with
`j = min(i + max_chars, n)`, stop when `j = n`, else continue from
`max(0, j - overlap)` (natural subtraction gives the `max(0, ...)`). -/
def chunkLoop (s : List Char) (maxC ov : Nat) : Nat → Nat → List (Nat × List Char)
  | 0, _ => []
  | f + 1, i =>
    if i < s.length then
      (i, (s.drop i).take (min (i + maxC) s.length - i)) ::
        (if min (i + maxC) s.length = s.length then []
         else chunkLoop s maxC ov f (min (i + maxC) s.length - ov))
    else []

/-- The `_chunk_text` helper of `llm_scan_staged_secrets_in_index`: one chunk
when the text fits, else the overlapping chunk loop.  The fuel `length + 1`
is enough whenever `overlap < max_chars` (each iteration advances the start
by `max_chars - overlap`). -/
def chunkText (s : List Char) (maxC ov : Nat) : List (Nat × List Char) :=
  if s.length ≤ maxC then [(0, s)] else chunkLoop s maxC ov (s.length + 1) 0

theorem chunkLoop_spec (s : List Char) (maxC ov : Nat) (hov : ov < maxC) :
    ∀ (f i : Nat), i < s.length → s.length - i < f →
      (∃ c L', chunkLoop s maxC ov f i = (i, c) :: L') ∧
      (∀ p ∈ chunkLoop s maxC ov f i,
         p.2 = (s.drop p.1).take (min (p.1 + maxC) s.length - p.1) ∧
         p.1 + p.2.length = min (p.1 + maxC) s.length) ∧
      (∀ p, (chunkLoop s maxC ov f i).getLast? = some p →
         p.1 + p.2.length = s.length) ∧
      List.Chain' (fun p q => q.1 + ov = p.1 + p.2.length) (chunkLoop s maxC ov f i) ∧
      (∀ a b, i ≤ a → a < b → b ≤ s.length → b - a ≤ ov →
        ∃ p ∈ chunkLoop s maxC ov f i, p.1 ≤ a ∧ b ≤ p.1 + p.2.length) := by
  intro f
  induction f with
  | zero => intro i hi hf; omega
  | succ f ih =>
      intro i hi hf
      have hj : min (i + maxC) s.length - i + i = min (i + maxC) s.length := by omega
      have hclen : ((s.drop i).take (min (i + maxC) s.length - i)).length
          = min (i + maxC) s.length - i := by
        rw [List.length_take, List.length_drop]
        omega
      by_cases hend : min (i + maxC) s.length = s.length
      · have hunfold : chunkLoop s maxC ov (f + 1) i
            = [(i, (s.drop i).take (min (i + maxC) s.length - i))] := by
          rw [chunkLoop, if_pos hi, if_pos hend]
        refine ⟨⟨_, [], hunfold⟩, ?_, ?_, ?_, ?_⟩
        · intro p hp
          rw [hunfold] at hp
          simp only [List.mem_singleton] at hp
          subst hp
          exact ⟨rfl, by simp only [hclen]; omega⟩
        · intro p hp
          rw [hunfold] at hp
          simp only [List.getLast?_singleton, Option.some.injEq] at hp
          subst hp
          simp only [hclen]
          omega
        · rw [hunfold]
          exact List.chain'_singleton _
        · intro a b ha hab hb hov'
          refine ⟨_, by rw [hunfold]; exact List.mem_singleton_self _, ha, ?_⟩
          simp only [hclen]
          omega
      · have hmlt : i + maxC < s.length := by omega
        have hjval : min (i + maxC) s.length = i + maxC := by omega
        have hi' : min (i + maxC) s.length - ov < s.length := by omega
        have hf' : s.length - (min (i + maxC) s.length - ov) < f := by omega
        obtain ⟨⟨c', L'', hhead⟩, hslice, hlast, hchain, hcover⟩ :=
          ih (min (i + maxC) s.length - ov) hi' hf'
        have hunfold : chunkLoop s maxC ov (f + 1) i
            = (i, (s.drop i).take (min (i + maxC) s.length - i)) ::
              chunkLoop s maxC ov f (min (i + maxC) s.length - ov) := by
          rw [chunkLoop, if_pos hi, if_neg hend]
        refine ⟨⟨_, _, hunfold⟩, ?_, ?_, ?_, ?_⟩
        · intro p hp
          rw [hunfold] at hp
          rcases List.mem_cons.mp hp with hp | hp
          · subst hp
            exact ⟨rfl, by simp only [hclen]; omega⟩
          · exact hslice p hp
        · intro p hp
          rw [hunfold, hhead, List.getLast?_cons_cons, ← hhead] at hp
          exact hlast p hp
        · rw [hunfold, hhead]
          refine List.chain'_cons.mpr ⟨?_, by rw [← hhead]; exact hchain⟩
          simp only [hclen]
          omega
        · intro a b ha hab hb hovw
          by_cases hbj : b ≤ min (i + maxC) s.length
          · refine ⟨_, by rw [hunfold]; exact List.mem_cons_self _ _, ha, ?_⟩
            simp only [hclen]
            omega
          · have ha' : min (i + maxC) s.length - ov ≤ a := by omega
            obtain ⟨p, hp, hpa, hpb⟩ := hcover a b ha' hab hb hovw
            exact ⟨p, by rw [hunfold]; exact List.mem_cons_of_mem _ hp, hpa, hpb⟩

/-- C7: with the default parameters (max size 60000, overlap 200),
`_chunk_text` returns `[(0, s)]` when the text fits; otherwise the chunks
start at 0, each chunk is the slice of the string at its offset of length
`min (offset + 60000) L - offset`, each chunk after the first starts exactly
200 characters before the previous chunk's end, the final chunk ends exactly
at `L`, and every window of at most 200 characters — in particular a secret
of that length spanning a chunk boundary — lies wholly inside some chunk. -/
theorem claim7_chunk_text :
    (∀ s : List Char, s.length ≤ 60000 → chunkText s 60000 200 = [(0, s)]) ∧
    (∀ s : List Char, 60000 < s.length →
      (∃ c L', chunkText s 60000 200 = (0, c) :: L') ∧
      (∀ p ∈ chunkText s 60000 200,
         p.2 = (s.drop p.1).take (min (p.1 + 60000) s.length - p.1) ∧
         p.1 + p.2.length = min (p.1 + 60000) s.length) ∧
      (∀ p, (chunkText s 60000 200).getLast? = some p →
         p.1 + p.2.length = s.length) ∧
      List.Chain' (fun p q => q.1 + 200 = p.1 + p.2.length) (chunkText s 60000 200) ∧
      (∀ a b : Nat, a < b → b ≤ s.length → b - a ≤ 200 →
        ∃ p ∈ chunkText s 60000 200, p.1 ≤ a ∧ b ≤ p.1 + p.2.length)) := by
  constructor
  · intro s hs
    rw [chunkText, if_pos hs]
  · intro s hs
    have h0 : 0 < s.length := by omega
    have hf : s.length - 0 < s.length + 1 := by omega
    obtain ⟨hhead, hslice, hlast, hchain, hcover⟩ :=
      chunkLoop_spec s 60000 200 (by omega) (s.length + 1) 0 h0 hf
    have hsame : chunkText s 60000 200 = chunkLoop s 60000 200 (s.length + 1) 0 := by
      rw [chunkText, if_neg (by omega)]
    rw [hsame]
    exact ⟨hhead, hslice, hlast, hchain,
      fun a b hab hb hw => hcover a b (Nat.zero_le _) hab hb hw⟩

/-- UTF-8 encoding of one code point (`str.encode('utf-8')` per character). -/
def utf8EncodeChar (c : Char) : List Nat :=
  if c.toNat < 0x80 then [c.toNat]
  else if c.toNat < 0x800 then [0xC0 + c.toNat / 64, 0x80 + c.toNat % 64]
  else if c.toNat < 0x10000 then
    [0xE0 + c.toNat / 4096, 0x80 + c.toNat / 64 % 64, 0x80 + c.toNat % 64]
  else
    [0xF0 + c.toNat / 262144, 0x80 + c.toNat / 4096 % 64,
     0x80 + c.toNat / 64 % 64, 0x80 + c.toNat % 64]

/-- UTF-8 encoding of a text. -/
def utf8Encode (cs : List Char) : List Nat := (cs.map utf8EncodeChar).flatten

/-- One code point of strict UTF-8 decoding: the leading byte classifies the
form; stray continuation bytes, overlong forms, surrogates and out-of-range
points are rejected, as CPython's `bytes.decode('utf-8')` does. -/
def utf8DecodeOne : List Nat → Option (Char × List Nat)
  | [] => none
  | b :: rest =>
    if b < 0x80 then some (Char.ofNat b, rest)
    else if b < 0xC0 then none
    else if b < 0xE0 then
      match rest with
      | c1 :: r =>
        if 0x80 ≤ c1 ∧ c1 < 0xC0 ∧ 0x80 ≤ (b - 0xC0) * 64 + (c1 - 0x80) then
          some (Char.ofNat ((b - 0xC0) * 64 + (c1 - 0x80)), r)
        else none
      | [] => none
    else if b < 0xF0 then
      match rest with
      | c1 :: c2 :: r =>
        if 0x80 ≤ c1 ∧ c1 < 0xC0 ∧ 0x80 ≤ c2 ∧ c2 < 0xC0 ∧
            0x800 ≤ (b - 0xE0) * 4096 + (c1 - 0x80) * 64 + (c2 - 0x80) ∧
            ¬(0xD800 ≤ (b - 0xE0) * 4096 + (c1 - 0x80) * 64 + (c2 - 0x80) ∧
              (b - 0xE0) * 4096 + (c1 - 0x80) * 64 + (c2 - 0x80) ≤ 0xDFFF) then
          some (Char.ofNat ((b - 0xE0) * 4096 + (c1 - 0x80) * 64 + (c2 - 0x80)), r)
        else none
      | _ => none
    else if b < 0xF8 then
      match rest with
      | c1 :: c2 :: c3 :: r =>
        if 0x80 ≤ c1 ∧ c1 < 0xC0 ∧ 0x80 ≤ c2 ∧ c2 < 0xC0 ∧ 0x80 ≤ c3 ∧ c3 < 0xC0 ∧
            0x10000 ≤ (b - 0xF0) * 262144 + (c1 - 0x80) * 4096 + (c2 - 0x80) * 64 + (c3 - 0x80) ∧
            (b - 0xF0) * 262144 + (c1 - 0x80) * 4096 + (c2 - 0x80) * 64 + (c3 - 0x80) ≤ 0x10FFFF then
          some (Char.ofNat
            ((b - 0xF0) * 262144 + (c1 - 0x80) * 4096 + (c2 - 0x80) * 64 + (c3 - 0x80)), r)
        else none
      | _ => none
    else none

/-- Fueled whole-text decoding loop; `utf8DecodeOne` always consumes at least
one byte, so fuel `length` is enough. -/
def utf8DecodeLoop : Nat → List Nat → Option (List Char)
  | 0, [] => some []
  | 0, _ :: _ => none
  | _ + 1, [] => some []
  | f + 1, b :: rest =>
    match utf8DecodeOne (b :: rest) with
    | some (c, r) =>
      match utf8DecodeLoop f r with
      | some cs => some (c :: cs)
      | none => none
    | none => none

/-- Strict UTF-8 decoding of a whole byte string. -/
def utf8Decode (data : List Nat) : Option (List Char) := utf8DecodeLoop data.length data

theorem utf8Encode_cons (c : Char) (cs : List Char) :
    utf8Encode (c :: cs) = utf8EncodeChar c ++ utf8Encode cs := by
  simp [utf8Encode]

theorem utf8DecodeOne_encodeChar (c : Char) (tail : List Nat) :
    utf8DecodeOne (utf8EncodeChar c ++ tail) = some (c, tail) ∧
    1 ≤ (utf8EncodeChar c).length := by
  have hvn : c.toNat < 0xD800 ∨ (0xDFFF < c.toNat ∧ c.toNat < 0x110000) := c.valid
  by_cases h80 : c.toNat < 0x80
  · have he : utf8EncodeChar c = [c.toNat] := by
      rw [utf8EncodeChar, if_pos h80]
    refine ⟨?_, by rw [he]; simp⟩
    rw [he, List.cons_append, List.nil_append, utf8DecodeOne.eq_def]
    simp only
    rw [if_pos h80, Char.ofNat_toNat]
  · by_cases h800 : c.toNat < 0x800
    · have he : utf8EncodeChar c = [0xC0 + c.toNat / 64, 0x80 + c.toNat % 64] := by
        rw [utf8EncodeChar, if_neg h80, if_pos h800]
      refine ⟨?_, by rw [he]; simp⟩
      rw [he]
      simp only [List.cons_append, List.nil_append]
      rw [utf8DecodeOne.eq_def]
      simp only
      rw [if_neg (by omega), if_neg (by omega), if_pos (by omega), if_pos (by omega)]
      have hcp : (0xC0 + c.toNat / 64 - 0xC0) * 64 + (0x80 + c.toNat % 64 - 0x80)
          = c.toNat := by omega
      rw [hcp, Char.ofNat_toNat]
    · by_cases h10000 : c.toNat < 0x10000
      · have he : utf8EncodeChar c
            = [0xE0 + c.toNat / 4096, 0x80 + c.toNat / 64 % 64, 0x80 + c.toNat % 64] := by
          rw [utf8EncodeChar, if_neg h80, if_neg h800, if_pos h10000]
        refine ⟨?_, by rw [he]; simp⟩
        rw [he]
        simp only [List.cons_append, List.nil_append]
        rw [utf8DecodeOne.eq_def]
        simp only
        rw [if_neg (by omega), if_neg (by omega), if_neg (by omega), if_pos (by omega)]
        have hcp : (0xE0 + c.toNat / 4096 - 0xE0) * 4096
            + (0x80 + c.toNat / 64 % 64 - 0x80) * 64 + (0x80 + c.toNat % 64 - 0x80)
            = c.toNat := by omega
        rw [if_pos (by rw [hcp]; omega)]
        rw [hcp, Char.ofNat_toNat]
      · have he : utf8EncodeChar c
            = [0xF0 + c.toNat / 262144, 0x80 + c.toNat / 4096 % 64,
               0x80 + c.toNat / 64 % 64, 0x80 + c.toNat % 64] := by
          rw [utf8EncodeChar, if_neg h80, if_neg h800, if_neg h10000]
        refine ⟨?_, by rw [he]; simp⟩
        rw [he]
        simp only [List.cons_append, List.nil_append]
        rw [utf8DecodeOne.eq_def]
        simp only
        rw [if_neg (by omega), if_neg (by omega), if_neg (by omega),
          if_neg (by omega), if_pos (by omega)]
        have hcp : (0xF0 + c.toNat / 262144 - 0xF0) * 262144
            + (0x80 + c.toNat / 4096 % 64 - 0x80) * 4096
            + (0x80 + c.toNat / 64 % 64 - 0x80) * 64
            + (0x80 + c.toNat % 64 - 0x80) = c.toNat := by omega
        rw [if_pos (by rw [hcp]; omega)]
        rw [hcp, Char.ofNat_toNat]

theorem utf8DecodeLoop_encode : ∀ (cs : List Char) (f : Nat),
    (utf8Encode cs).length ≤ f → utf8DecodeLoop f (utf8Encode cs) = some cs := by
  intro cs
  induction cs with
  | nil => intro f hf; cases f <;> rfl
  | cons c cs ih =>
      intro f hf
      obtain ⟨hone, hlen1⟩ := utf8DecodeOne_encodeChar c (utf8Encode cs)
      have hlen : (utf8Encode (c :: cs)).length
          = (utf8EncodeChar c).length + (utf8Encode cs).length := by
        rw [utf8Encode_cons, List.length_append]
      match f with
      | 0 => omega
      | f + 1 =>
          match hx : utf8Encode (c :: cs) with
          | [] => rw [hx] at hlen; simp at hlen; omega
          | y :: ys =>
              rw [utf8DecodeLoop, ← hx, utf8Encode_cons, hone]
              have hrest : (utf8Encode cs).length ≤ f := by
                rw [hx] at hlen hf
                simp only [List.length_cons] at hlen hf
                omega
              simp only
              rw [ih f hrest]

theorem utf8Decode_utf8Encode (cs : List Char) :
    utf8Decode (utf8Encode cs) = some cs :=
  utf8DecodeLoop_encode cs (utf8Encode cs).length (Nat.le_refl _)

theorem utf8Encode_injective {a b : List Char} (h : utf8Encode a = utf8Encode b) :
    a = b := by
  have ha := utf8Decode_utf8Encode a
  have hb := utf8Decode_utf8Encode b
  rw [h, hb] at ha
  exact (Option.some_inj.mp ha).symm

/-- The `_is_probably_text` check: no NUL byte and full UTF-8 decodability. -/
def isProbablyText (data : List Nat) : Bool :=
  !data.contains 0 && (utf8Decode data).isSome

/-- Abstract state of one repository: working-tree files, the staging-area
(index) entries `path → (mode, staged bytes)` and the content-addressed
object store.  Association lists shadow on the left, so prepending an entry
is an update. -/
structure GitState where
  workTree : List (String × List Nat)
  index : List (String × (Nat × List Nat))
  objects : List (List Nat)
deriving DecidableEq

/-- The characters of `raw.encode('utf-8', errors='ignore')` over GitPython's
surrogateescape decode of the `git show` output (`RepoHelpers.py:174-175`,
`:311-312`): each well-formed UTF-8 sequence decodes to its character and
every ill-formed byte becomes a lone surrogate, which the `encode` step with
`errors='ignore'` then deletes.  Net effect: the strictly decodable
characters in order, with the offending bytes dropped (resynchronising one
byte at a time keeps exactly the same characters as CPython's
maximal-subpart error consumption, since a byte inside a well-formed
sequence is never part of an error subpart and vice versa). -/
def transcodeChars : Nat → List Nat → List Char
  | 0, _ => []
  | _, [] => []
  | fuel + 1, b :: rest =>
    match utf8DecodeOne (b :: rest) with
    | some (c, r) => c :: transcodeChars fuel r
    | none => transcodeChars fuel rest

/-- The bytes a successful `git show :path` read hands to
`_is_probably_text`: the staged blob transcoded as above.  `utf8DecodeOne`
consumes at least one byte per step, so fuel `length` is enough. -/
def transcodeBytes (bs : List Nat) : List Nat :=
  utf8Encode (transcodeChars bs.length bs)

/-- Environment of one file's external calls in the regex pass: whether
`git show :path` succeeds, and whether the `git hash-object -w` subprocess
exits with status 0.  The `git update-index` subprocess of
`RepoHelpers.py:213-218` is dead code (the line before it raises), so no
outcome is modelled for it. -/
structure FileEnv where
  showOk : Bool
  hashOk : Bool

/-- One file of `sanitize_staged_secrets_in_index`, as written: skip paths
not in the index (deletions); read the staged blob through the lossy
transcoding (or fall back to the raw working-tree bytes when `git show`
fails); skip non-text content; sanitize; when changed, write the new loose
object (`git hash-object -w`; a non-zero exit abandons the file), and then
crash: line 212 is `mode = api_key(repo, path_str)` where `api_key` is the
module-level configuration string, so the call raises `TypeError` with no
handler.  The error outcome carries the state at the crash — the loose
object was already written; index and working tree were not touched. -/
def sanitizeProcessFile (fe : String → FileEnv) (st : GitState) (p : String) :
    GitState × Except Unit (Option String) :=
  match List.lookup p st.index with
  | none => (st, Except.ok none)
  | some (_, idxBytes) =>
    match (if (fe p).showOk then some (transcodeBytes idxBytes)
           else List.lookup p st.workTree) with
    | none => (st, Except.ok none)
    | some data =>
      if isProbablyText data then
        match utf8Decode data with
        | none => (st, Except.ok none)
        | some text =>
          if (sanitizeText text).2 then
            if (fe p).hashOk then
              ({ st with objects := utf8Encode (sanitizeText text).1 :: st.objects },
               Except.error ())
            else (st, Except.ok none)
          else (st, Except.ok none)
      else (st, Except.ok none)

/-- The whole regex pass over the staged paths, as written: the first
uncaught `TypeError` propagates, abandoning the remaining files; the
`modified.append` of `RepoHelpers.py:221` is unreachable, so a completing
pass accumulates whatever the per-file ok payloads report (provably
nothing). -/
def sanitizePass (fe : String → FileEnv) (st : GitState) :
    List String → GitState × Except Unit (List String)
  | [] => (st, Except.ok [])
  | p :: rest =>
    match sanitizeProcessFile fe st p with
    | (st1, Except.error e) => (st1, Except.error e)
    | (st1, Except.ok none) => sanitizePass fe st1 rest
    | (st1, Except.ok (some x)) =>
      match sanitizePass fe st1 rest with
      | (st2, Except.error e) => (st2, Except.error e)
      | (st2, Except.ok rs) => (st2, Except.ok (x :: rs))

/-- One parsed finding of the reasoning service's JSON (after the integer
coercions of `_extract_findings_from_response`; offsets may be any Python
integers).  `stop` stands for the source's `end` field. -/
structure Finding where
  start : Int
  stop : Int
  kind : String
  reason : String
  snippet : List Char
deriving DecidableEq

/-- Python slice `l[s:e]` for non-negative bounds. -/
def pySlice (l : List Char) (s e : Nat) : List Char := (l.drop s).take (e - s)

/-- Python `str.strip()` (whitespace at ASCII granularity). -/
def pyStrip (l : List Char) : List Char :=
  ((l.dropWhile isPySpace).reverse.dropWhile isPySpace).reverse

/-- Python `str.find` from a running index. -/
def findSubFrom (sub : List Char) : List Char → Nat → Option Nat
  | [], i => if sub.isPrefixOf [] then some i else none
  | c :: t, i => if sub.isPrefixOf (c :: t) then some i else findSubFrom sub t (i + 1)

/-- Python `str.find`: first index where `sub` occurs in `l`, else `none`
(the source's `-1`). -/
def findSub (l sub : List Char) : Option Nat := findSubFrom sub l 0

/-- The per-finding validation of the semantic pass
(`llm_scan_staged_secrets_in_index`, loop over `findings`): keep the finding
only if `0 ≤ start < end < len(chunk)`; if a non-empty declared snippet is
not inside the candidate text, search the whole chunk for it and recompute
the span from the first occurrence when found; finally drop the finding
whose trimmed candidate is shorter than 8 characters. -/
def validateFinding (chunk : List Char) (f : Finding) : Option (Nat × Nat) :=
  if 0 ≤ f.start ∧ f.start < f.stop ∧ f.stop < (chunk.length : Int) then
    if f.snippet ≠ [] ∧ (findSub (pySlice chunk f.start.toNat f.stop.toNat) f.snippet).isNone then
      match findSub chunk f.snippet with
      | some idx =>
          if 8 ≤ (pyStrip (pySlice chunk idx (idx + f.snippet.length))).length then
            some (idx, idx + f.snippet.length)
          else none
      | none =>
          if 8 ≤ (pyStrip (pySlice chunk f.start.toNat f.stop.toNat)).length then
            some (f.start.toNat, f.stop.toNat)
          else none
    else
      if 8 ≤ (pyStrip (pySlice chunk f.start.toNat f.stop.toNat)).length then
        some (f.start.toNat, f.stop.toNat)
      else none
  else none

/-- Ranges kept from one chunk's findings, translated to file-absolute
offsets (`all_ranges.append((base + s, base + e))`). -/
def collectChunk (base : Nat) (chunk : List Char) (fs : List Finding) : List (Nat × Nat) :=
  (fs.filterMap (validateFinding chunk)).map (fun pr => (base + pr.1, base + pr.2))

/-- Notes recorded for the kept findings of one chunk. -/
def collectChunkNotes (path : String) (chunk : List Char) (fs : List Finding) : List String :=
  fs.filterMap (fun f =>
    match validateFinding chunk f with
    | some _ => some (path ++ ": " ++ f.kind ++ " → " ++ f.reason)
    | none => none)

/-- Stable insertion into a list sorted descending by the range start. -/
def insertDesc (x : Nat × Nat) : List (Nat × Nat) → List (Nat × Nat)
  | [] => [x]
  | y :: ys => if x.1 < y.1 then y :: insertDesc x ys else x :: y :: ys

/-- `sorted(ranges, key=lambda r: r[0], reverse=True)` — Python's sort is
stable, and so is this insertion sort. -/
def sortDesc : List (Nat × Nat) → List (Nat × Nat)
  | [] => []
  | x :: xs => insertDesc x (sortDesc xs)

/-- `_apply_replacements_by_ranges`: apply the `[start, end)` replacements in
descending start order so indices stay valid; a range out of bounds is
skipped. -/
def applyRanges (text : List Char) (ranges : List (Nat × Nat)) (repl : List Char) : List Char :=
  (sortDesc ranges).foldl
    (fun out pr =>
      if pr.1 < pr.2 ∧ pr.2 ≤ out.length then
        out.take pr.1 ++ repl ++ out.drop pr.2
      else out)
    text

/-- Environment of one file's external calls in the semantic pass: only the
`git show :path` outcome.  The service calls, subprocesses and responses of
`RepoHelpers.py:331-420` are unreachable (the chunking call on line 326
raises first), so no outcomes are modelled for them. -/
structure LLMFileEnv where
  showOk : Bool

/-- A `{'path', 'replaced_count', 'notes'}` entry of the semantic pass. -/
structure LLMReport where
  path : String
  count : Nat
  notes : List String
deriving DecidableEq

/-- One file of `llm_scan_staged_secrets_in_index`, as written: read and
text-check exactly as in the regex pass, then crash: line 326 is
`chunks = _chunk_text(text, max_chars=api_key, overlap=200)` where `api_key`
is the module-level configuration string, so `_chunk_text`'s first
comparison `len(s) <= max_chars` raises `TypeError` (`int` against `str`)
for every text file, before any service call or write. -/
def llmProcessFile (fe : String → LLMFileEnv) (st : GitState) (p : String) :
    GitState × Except Unit (Option LLMReport) :=
  match List.lookup p st.index with
  | none => (st, Except.ok none)
  | some (_, idxBytes) =>
    match (if (fe p).showOk then some (transcodeBytes idxBytes)
           else List.lookup p st.workTree) with
    | none => (st, Except.ok none)
    | some data =>
      if isProbablyText data then
        match utf8Decode data with
        | none => (st, Except.ok none)
        | some _ => (st, Except.error ())
      else (st, Except.ok none)

/-- The whole semantic pass over the staged paths, as written: the first
text file raises and the `TypeError` propagates, abandoning the rest. -/
def llmPass (fe : String → LLMFileEnv) (st : GitState) :
    List String → GitState × Except Unit (List LLMReport)
  | [] => (st, Except.ok [])
  | p :: rest =>
    match llmProcessFile fe st p with
    | (st1, Except.error e) => (st1, Except.error e)
    | (st1, Except.ok none) => llmPass fe st1 rest
    | (st1, Except.ok (some x)) =>
      match llmPass fe st1 rest with
      | (st2, Except.error e) => (st2, Except.error e)
      | (st2, Except.ok rs) => (st2, Except.ok (x :: rs))

theorem utf8DecodeOne_zero (rest : List Nat) :
    utf8DecodeOne (0 :: rest) = some (Char.ofNat 0, rest) := by
  rw [utf8DecodeOne.eq_def]
  simp only
  rw [if_pos (by omega)]

/-- Structural facts about one successful strict decode step: the remainder
is no longer than the tail, a NUL in the tail survives into the remainder
(continuation bytes lie in `[0x80, 0xC0)`, so a consumed byte other than the
first is never NUL), and a NUL first byte decodes to the NUL character. -/
theorem utf8DecodeOne_some_facts {b : Nat} {rest : List Nat} {c : Char} {r : List Nat}
    (h : utf8DecodeOne (b :: rest) = some (c, r)) :
    r.length ≤ rest.length ∧ (0 ∈ rest → 0 ∈ r) ∧ (b = 0 → c = Char.ofNat 0) := by
  rw [utf8DecodeOne.eq_def] at h
  simp only at h
  by_cases h80 : b < 0x80
  · rw [if_pos h80] at h
    simp only [Option.some.injEq, Prod.mk.injEq] at h
    obtain ⟨hc, hr⟩ := h
    subst hr
    refine ⟨Nat.le_refl _, fun h0 => h0, fun hb0 => ?_⟩
    rw [← hc, hb0]
  · rw [if_neg h80] at h
    by_cases hC0 : b < 0xC0
    · rw [if_pos hC0] at h
      cases h
    · rw [if_neg hC0] at h
      by_cases hE0 : b < 0xE0
      · rw [if_pos hE0] at h
        cases rest with
        | nil => simp at h
        | cons c1 r1 =>
          simp only at h
          split at h
          · rename_i hcond
            simp only [Option.some.injEq, Prod.mk.injEq] at h
            obtain ⟨hc, hr⟩ := h
            subst hr
            refine ⟨by simp, ?_, fun hb0 => absurd hb0 (by omega)⟩
            intro h0
            rcases List.mem_cons.mp h0 with h0 | h0
            · omega
            · exact h0
          · cases h
      · rw [if_neg hE0] at h
        by_cases hF0 : b < 0xF0
        · rw [if_pos hF0] at h
          cases rest with
          | nil => simp at h
          | cons c1 r1 =>
            cases r1 with
            | nil => simp at h
            | cons c2 r2 =>
              simp only at h
              split at h
              · rename_i hcond
                simp only [Option.some.injEq, Prod.mk.injEq] at h
                obtain ⟨hc, hr⟩ := h
                subst hr
                refine ⟨by simp; omega, ?_, fun hb0 => absurd hb0 (by omega)⟩
                intro h0
                rcases List.mem_cons.mp h0 with h0 | h0
                · omega
                · rcases List.mem_cons.mp h0 with h0 | h0
                  · omega
                  · exact h0
              · cases h
        · rw [if_neg hF0] at h
          by_cases hF8 : b < 0xF8
          · rw [if_pos hF8] at h
            cases rest with
            | nil => simp at h
            | cons c1 r1 =>
              cases r1 with
              | nil => simp at h
              | cons c2 r2 =>
                cases r2 with
                | nil => simp at h
                | cons c3 r3 =>
                  simp only at h
                  split at h
                  · rename_i hcond
                    simp only [Option.some.injEq, Prod.mk.injEq] at h
                    obtain ⟨hc, hr⟩ := h
                    subst hr
                    refine ⟨by simp; omega, ?_, fun hb0 => absurd hb0 (by omega)⟩
                    intro h0
                    rcases List.mem_cons.mp h0 with h0 | h0
                    · omega
                    · rcases List.mem_cons.mp h0 with h0 | h0
                      · omega
                      · rcases List.mem_cons.mp h0 with h0 | h0
                        · omega
                        · exact h0
                  · cases h
          · rw [if_neg hF8] at h
            cases h

/-- A NUL byte always survives the lossy show-transcoding: it is itself a
well-formed one-byte sequence and is never consumed inside another one. -/
theorem transcodeChars_nul : ∀ (fuel : Nat) (bs : List Nat), bs.length ≤ fuel →
    0 ∈ bs → Char.ofNat 0 ∈ transcodeChars fuel bs := by
  intro fuel
  induction fuel with
  | zero =>
    intro bs hlen h0
    cases bs with
    | nil => simp at h0
    | cons b rest => simp at hlen
  | succ f ih =>
    intro bs hlen h0
    cases bs with
    | nil => simp at h0
    | cons b rest =>
      rw [transcodeChars]
      cases hd : utf8DecodeOne (b :: rest) with
      | none =>
        have hb : b ≠ 0 := by
          intro hb0
          rw [hb0, utf8DecodeOne_zero] at hd
          cases hd
        have h0' : 0 ∈ rest := by
          rcases List.mem_cons.mp h0 with h | h
          · exact absurd h.symm hb
          · exact h
        have hlen' : rest.length ≤ f := by
          simp only [List.length_cons] at hlen
          omega
        exact ih rest hlen' h0'
      | some pr =>
        obtain ⟨c, r⟩ := pr
        obtain ⟨hle, hmem, hz⟩ := utf8DecodeOne_some_facts hd
        rcases List.mem_cons.mp h0 with h | h
        · exact List.mem_cons.mpr (Or.inl (hz h.symm).symm)
        · have hlen' : r.length ≤ f := by
            simp only [List.length_cons] at hlen
            omega
          exact List.mem_cons.mpr (Or.inr (ih r hlen' (hmem h)))

theorem transcodeBytes_nul {bs : List Nat} (h : 0 ∈ bs) : 0 ∈ transcodeBytes bs := by
  have hc := transcodeChars_nul bs.length bs (Nat.le_refl _) h
  rw [transcodeBytes, utf8Encode]
  exact List.mem_flatten.mpr
    ⟨utf8EncodeChar (Char.ofNat 0), List.mem_map_of_mem utf8EncodeChar hc, by decide⟩

/-- The transcoded read always decodes strictly: it is an encoding by
construction, so the strict-decode rejection of `_is_probably_text` can
never fire on the primary (successful `git show`) path. -/
theorem transcodeBytes_decode (bs : List Nat) :
    utf8Decode (transcodeBytes bs) = some (transcodeChars bs.length bs) := by
  rw [transcodeBytes, utf8Decode_utf8Encode]

theorem sanitizeProcessFile_frame (fe : String → FileEnv) (st : GitState) (p : String) :
    (sanitizeProcessFile fe st p).1.workTree = st.workTree ∧
    (sanitizeProcessFile fe st p).1.index = st.index := by
  rw [sanitizeProcessFile]
  repeat' split
  all_goals exact ⟨rfl, rfl⟩

theorem llmProcessFile_state (fe : String → LLMFileEnv) (st : GitState) (p : String) :
    (llmProcessFile fe st p).1 = st := by
  rw [llmProcessFile]
  repeat' split
  all_goals rfl

theorem sanitizePass_frame (fe : String → FileEnv) :
    ∀ (paths : List String) (st : GitState),
      (sanitizePass fe st paths).1.workTree = st.workTree ∧
      (sanitizePass fe st paths).1.index = st.index := by
  intro paths
  induction paths with
  | nil => intro st; exact ⟨rfl, rfl⟩
  | cons p rest ih =>
    intro st
    rw [sanitizePass]
    split
    · rename_i st1 e hp
      have hfr := sanitizeProcessFile_frame fe st p
      rw [hp] at hfr
      exact hfr
    · rename_i st1 hp
      have hfr := sanitizeProcessFile_frame fe st p
      rw [hp] at hfr
      exact ⟨(ih st1).1.trans hfr.1, (ih st1).2.trans hfr.2⟩
    · rename_i st1 x hp
      have hfr := sanitizeProcessFile_frame fe st p
      rw [hp] at hfr
      split
      · rename_i st2 e hq
        have hih := ih st1
        rw [hq] at hih
        exact ⟨hih.1.trans hfr.1, hih.2.trans hfr.2⟩
      · rename_i st2 rs hq
        have hih := ih st1
        rw [hq] at hih
        exact ⟨hih.1.trans hfr.1, hih.2.trans hfr.2⟩

theorem llmPass_state (fe : String → LLMFileEnv) :
    ∀ (paths : List String) (st : GitState), (llmPass fe st paths).1 = st := by
  intro paths
  induction paths with
  | nil => intro st; rfl
  | cons p rest ih =>
    intro st
    rw [llmPass]
    split
    · rename_i st1 e hp
      have hfr := llmProcessFile_state fe st p
      rw [hp] at hfr
      exact hfr
    · rename_i st1 hp
      have hfr := llmProcessFile_state fe st p
      rw [hp] at hfr
      exact (ih st1).trans hfr
    · rename_i st1 x hp
      have hfr := llmProcessFile_state fe st p
      rw [hp] at hfr
      split
      · rename_i st2 e hq
        have hih := ih st1
        rw [hq] at hih
        exact hih.trans hfr
      · rename_i st2 rs hq
        have hih := ih st1
        rw [hq] at hih
        exact hih.trans hfr

theorem sanitizeProcessFile_ok {fe : String → FileEnv} {st : GitState} {p : String}
    {st' : GitState} {r : Option String}
    (h : sanitizeProcessFile fe st p = (st', Except.ok r)) : r = none ∧ st' = st := by
  rw [sanitizeProcessFile] at h
  repeat' split at h
  all_goals first
  | (simp only [Prod.mk.injEq, Except.ok.injEq] at h
     exact ⟨h.2.symm, h.1.symm⟩)
  | (simp at h)

/-- A state with two staged text files, each holding a value the key/value
pattern redacts; the working tree is empty (initial commit) and the object
store is empty. -/
def bugState : GitState where
  workTree := []
  index := [("a.txt", (33188, utf8Encode "KEY=aaaaaaaaaaaaaaaa".toList)),
            ("b.txt", (33188, utf8Encode "TOKEN=bbbbbbbbbbbbbbbb".toList))]
  objects := []

/-- `git show` and `hash-object` both succeed. -/
def bugEnv : String → FileEnv := fun _ => ⟨true, true⟩

/-- `git show` succeeds in the semantic pass. -/
def bugLEnv : String → LLMFileEnv := fun _ => ⟨true⟩

/-- C2 (code bug): no staged blob is ever rewritten.  Whichever way a pass
ends, index and working tree are byte-identical to the pre-pass state; a
per-file call that returns reports nothing (the repoint and the report
append are dead code behind the `TypeError` of `RepoHelpers.py:212`); and on
a concrete file whose content the sanitizer would change, the per-file run
writes the loose object and then raises — so "the staged content differs
afterwards" never happens. -/
theorem claim2_staged_never_rewritten :
    (∀ (fe : String → FileEnv) (st : GitState) (paths : List String),
      (sanitizePass fe st paths).1.workTree = st.workTree ∧
      (sanitizePass fe st paths).1.index = st.index) ∧
    (∀ (fe : String → LLMFileEnv) (st : GitState) (paths : List String),
      (llmPass fe st paths).1 = st) ∧
    (∀ (fe : String → FileEnv) (st : GitState) (p : String) (st' : GitState)
        (r : Option String),
      sanitizeProcessFile fe st p = (st', Except.ok r) → r = none) ∧
    (sanitizeProcessFile bugEnv bugState "a.txt"
      = ({ bugState with objects := [utf8Encode "KEY=api_key".toList] },
         Except.error ())) := by
  refine ⟨fun fe st paths => sanitizePass_frame fe paths st,
    fun fe st paths => llmPass_state fe paths st,
    fun fe st p st' r h => (sanitizeProcessFile_ok h).1, rfl⟩

/-- C4 (code bug): a FAILED `hash-object` indeed abandons the file silently,
but a SUCCESSFUL one crashes the regex pass — the crash happens exactly when
the object write succeeded (`mode = api_key(repo, path_str)`,
`RepoHelpers.py:212`), the pass then abandons every remaining file, and on
the concrete two-secret state the second file is never reached.  The
semantic pass aborts even earlier: every text file raises at the chunking
call (`RepoHelpers.py:326`) before any write is attempted. -/
theorem claim4_objectwrite_crash :
    (∀ (fe : String → FileEnv) (st : GitState) (p : String),
      (fe p).hashOk = false → sanitizeProcessFile fe st p = (st, Except.ok none)) ∧
    (∀ (fe : String → FileEnv) (st : GitState) (p : String) (st' : GitState),
      sanitizeProcessFile fe st p = (st', Except.error ()) → (fe p).hashOk = true) ∧
    (∀ (fe : String → FileEnv) (st : GitState) (p : String) (rest : List String)
        (st' : GitState),
      sanitizeProcessFile fe st p = (st', Except.error ()) →
      sanitizePass fe st (p :: rest) = (st', Except.error ())) ∧
    (sanitizePass bugEnv bugState ["a.txt", "b.txt"]
      = ({ bugState with objects := [utf8Encode "KEY=api_key".toList] },
         Except.error ())) ∧
    (∀ (fe : String → LLMFileEnv) (st : GitState) (p : String) (mode : Nat)
        (bs : List Nat),
      List.lookup p st.index = some (mode, bs) → (fe p).showOk = true →
      isProbablyText (transcodeBytes bs) = true →
      llmProcessFile fe st p = (st, Except.error ())) ∧
    (∀ (fe : String → LLMFileEnv) (st : GitState) (p : String) (rest : List String)
        (st' : GitState),
      llmProcessFile fe st p = (st', Except.error ()) →
      llmPass fe st (p :: rest) = (st', Except.error ())) := by
  refine ⟨?_, ?_, ?_, rfl, ?_, ?_⟩
  · intro fe st p h
    rw [sanitizeProcessFile]
    repeat' split
    all_goals first
    | rfl
    | (rename_i hh; rw [h] at hh; cases hh)
  · intro fe st p st' h
    rw [sanitizeProcessFile] at h
    repeat' split at h
    all_goals first
    | assumption
    | (simp at h)
  · intro fe st p rest st' h
    rw [sanitizePass, h]
  · intro fe st p mode bs hl hshow htext
    rw [llmProcessFile, hl]
    simp only [hshow, if_true]
    rw [if_pos htext, transcodeBytes_decode]
  · intro fe st p rest st' h
    rw [llmPass, h]

/-- Staged bytes that fail strict UTF-8 decoding but contain no NUL: a stray
`0xFF` in front of a key/value secret. -/
def c6Bytes : List Nat := 0xFF :: utf8Encode "OPENAI_KEY=aaaaaaaaaaaaaaaa".toList

/-- One staged file whose blob is `c6Bytes`. -/
def c6State : GitState where
  workTree := []
  index := [("f.txt", (33188, c6Bytes))]
  objects := []

/-- C6 counterexample: the blob fails strict UTF-8 decoding and has no NUL,
so the claim says both passes skip it; but the show-transcoding silently
drops the bad byte, yielding the valid secret-bearing text, and both passes
process the file — the regex pass reaches the object write and crashes at
the repoint, the semantic pass reaches the chunking call and crashes — the
exact opposite of being skipped with its staged content untouched. -/
theorem claim6_decodefail_processed_cex :
    utf8Decode c6Bytes = none ∧
    c6Bytes.contains 0 = false ∧
    isProbablyText c6Bytes = false ∧
    utf8Decode (transcodeBytes c6Bytes)
      = some "OPENAI_KEY=aaaaaaaaaaaaaaaa".toList ∧
    (sanitizeProcessFile bugEnv c6State "f.txt").2 = Except.error () ∧
    (llmProcessFile bugLEnv c6State "f.txt").2 = Except.error () := by
  refine ⟨by decide, by decide, by decide, by decide, rfl, rfl⟩

/-- C6 amended: a staged blob containing a NUL byte is skipped by both
passes on the primary path (the NUL survives the transcoding, so
`_is_probably_text` rejects the read); the strict-decode rejection can never
fire there, because the transcoded read is valid UTF-8 by construction; a
blob that merely fails strict decoding is skipped only on the fallback path
that reads the raw working-tree bytes after `git show` fails. -/
theorem claim6_binary_handling :
    (∀ (fe : String → FileEnv) (ge : String → LLMFileEnv) (st : GitState)
        (p : String) (mode : Nat) (bs : List Nat),
      List.lookup p st.index = some (mode, bs) →
      (fe p).showOk = true → (ge p).showOk = true → 0 ∈ bs →
      sanitizeProcessFile fe st p = (st, Except.ok none) ∧
      llmProcessFile ge st p = (st, Except.ok none)) ∧
    (∀ bs : List Nat,
      utf8Decode (transcodeBytes bs) = some (transcodeChars bs.length bs)) ∧
    (∀ (fe : String → FileEnv) (ge : String → LLMFileEnv) (st : GitState)
        (p : String) (mode : Nat) (bs wt : List Nat),
      List.lookup p st.index = some (mode, bs) →
      (fe p).showOk = false → (ge p).showOk = false →
      List.lookup p st.workTree = some wt →
      isProbablyText wt = false →
      sanitizeProcessFile fe st p = (st, Except.ok none) ∧
      llmProcessFile ge st p = (st, Except.ok none)) := by
  refine ⟨?_, transcodeBytes_decode, ?_⟩
  · intro fe ge st p mode bs hl hshow hgshow h0
    have hc : (transcodeBytes bs).contains 0 = true := by
      simpa [List.contains] using List.elem_iff.mpr (transcodeBytes_nul h0)
    have ht : isProbablyText (transcodeBytes bs) = false := by
      rw [isProbablyText, hc]
      rfl
    constructor
    · rw [sanitizeProcessFile, hl]
      simp only [hshow, if_true]
      rw [ht]
      rfl
    · rw [llmProcessFile, hl]
      simp only [hgshow, if_true]
      rw [ht]
      rfl
  · intro fe ge st p mode bs wt hl hshow hgshow hwt htext
    constructor
    · rw [sanitizeProcessFile, hl]
      simp [hshow, hwt, htext]
    · rw [llmProcessFile, hl]
      simp [hgshow, hwt, htext]

theorem findSubFrom_isSome_iff (sub : List Char) :
    ∀ (l : List Char) (i : Nat),
      (findSubFrom sub l i).isSome = true ↔ sub <:+: l := by
  intro l
  induction l with
  | nil =>
      intro i
      rw [findSubFrom]
      constructor
      · intro h
        split at h
        · rename_i hpre
          have := List.isPrefixOf_iff_prefix.mp hpre
          exact this.isInfix
        · cases h
      · intro h
        have : sub = [] := List.eq_nil_of_infix_nil h
        subst this
        simp
  | cons c t ih =>
      intro i
      rw [findSubFrom]
      constructor
      · intro h
        split at h
        · rename_i hpre
          exact (List.isPrefixOf_iff_prefix.mp hpre).isInfix
        · exact ((ih (i + 1)).mp h).trans (List.suffix_cons c t).isInfix
      · intro h
        split
        · simp
        · rename_i hpre
          rcases List.infix_cons_iff.mp h with h1 | h1
          · exact absurd (List.isPrefixOf_iff_prefix.mpr h1) (by simpa using hpre)
          · exact (ih (i + 1)).mpr h1

theorem findSub_isSome_iff (l sub : List Char) :
    (findSub l sub).isSome = true ↔ sub <:+: l :=
  findSubFrom_isSome_iff sub l 0

theorem pySlice_isInfix (l : List Char) (a b : Nat) : pySlice l a b <:+: l := by
  rw [pySlice]
  exact (List.take_prefix _ _).isInfix.trans (List.drop_suffix a l).isInfix

theorem findSub_slice_none {l sub : List Char} {a b : Nat}
    (h : findSub l sub = none) : (findSub (pySlice l a b) sub).isNone = true := by
  cases hs : findSub (pySlice l a b) sub with
  | none => rfl
  | some i =>
      have h1 : (findSub (pySlice l a b) sub).isSome = true := by rw [hs]; rfl
      have h2 := ((findSub_isSome_iff _ _).mp h1).trans (pySlice_isInfix l a b)
      have h3 := (findSub_isSome_iff l sub).mpr h2
      rw [h] at h3
      cases h3

/-- C8 counterexample: a finding whose declared snippet occurs nowhere in the
chunk — neither at the declared span nor anywhere else — is still kept, at
its declared span, as long as the span is range-valid and the text there
passes the 8-character floor.  The claim's "if neither validates the finding
is discarded" fails. -/
theorem claim8_discard_cex :
    findSub ("0123456789abcdef".toList) ("ZZZZZZZZ".toList) = none ∧
    (findSub (pySlice ("0123456789abcdef".toList) 0 10) ("ZZZZZZZZ".toList)).isNone
      = true ∧
    validateFinding ("0123456789abcdef".toList)
        ⟨0, 10, "token", "r", "ZZZZZZZZ".toList⟩ = some (0, 10) := by
  refine ⟨by decide, by decide, by decide⟩

/-- C8 amended: the semantic pass keeps a finding only when
`0 ≤ start < end < chunkLength`; a kept finding's trimmed text is at least 8
characters; when the non-empty declared snippet is not inside the declared
candidate but occurs elsewhere in the chunk, the span is recomputed from the
first occurrence (still subject to the 8-character floor); when the snippet
occurs nowhere in the chunk the finding is NOT discarded — it is kept at its
declared span whenever the floor passes; and every kept range is translated
to file-absolute offsets by adding the chunk's start offset. -/
theorem claim8_finding_validation :
    (∀ (chunk : List Char) (f : Finding),
      ¬(0 ≤ f.start ∧ f.start < f.stop ∧ f.stop < (chunk.length : Int)) →
      validateFinding chunk f = none) ∧
    (∀ (chunk : List Char) (f : Finding) (s e : Nat),
      validateFinding chunk f = some (s, e) →
      8 ≤ (pyStrip (pySlice chunk s e)).length) ∧
    (∀ (chunk : List Char) (f : Finding) (idx : Nat),
      (0 ≤ f.start ∧ f.start < f.stop ∧ f.stop < (chunk.length : Int)) →
      f.snippet ≠ [] →
      (findSub (pySlice chunk f.start.toNat f.stop.toNat) f.snippet).isNone = true →
      findSub chunk f.snippet = some idx →
      validateFinding chunk f
        = if 8 ≤ (pyStrip (pySlice chunk idx (idx + f.snippet.length))).length
          then some (idx, idx + f.snippet.length) else none) ∧
    (∀ (chunk : List Char) (f : Finding),
      (0 ≤ f.start ∧ f.start < f.stop ∧ f.stop < (chunk.length : Int)) →
      findSub chunk f.snippet = none →
      validateFinding chunk f
        = if 8 ≤ (pyStrip (pySlice chunk f.start.toNat f.stop.toNat)).length
          then some (f.start.toNat, f.stop.toNat) else none) ∧
    (∀ (base : Nat) (chunk : List Char) (fs : List Finding),
      collectChunk base chunk fs
        = (fs.filterMap (validateFinding chunk)).map
            (fun pr => (base + pr.1, base + pr.2))) := by
  refine ⟨?_, ?_, ?_, ?_, ?_⟩
  · intro chunk f h
    rw [validateFinding, if_neg h]
  · intro chunk f s e h
    rw [validateFinding] at h
    split at h
    · split at h
      · split at h
        · split at h
          · simp only [Option.some.injEq, Prod.mk.injEq] at h
            obtain ⟨hs, he⟩ := h
            subst hs; subst he
            assumption
          · cases h
        · split at h
          · simp only [Option.some.injEq, Prod.mk.injEq] at h
            obtain ⟨hs, he⟩ := h
            subst hs; subst he
            assumption
          · cases h
      · split at h
        · simp only [Option.some.injEq, Prod.mk.injEq] at h
          obtain ⟨hs, he⟩ := h
          subst hs; subst he
          assumption
        · cases h
    · cases h
  · intro chunk f idx hrange hsnip hnotin hfound
    rw [validateFinding, if_pos hrange,
      if_pos ⟨hsnip, by rw [Option.isNone_iff_eq_none] at hnotin ⊢; exact hnotin⟩,
      hfound]
  · intro chunk f hrange hnone
    have hsnip : f.snippet ≠ [] := by
      intro hemp
      rw [hemp] at hnone
      rw [findSub, findSubFrom.eq_def] at hnone
      cases chunk with
      | nil => simp at hnone
      | cons c t => simp at hnone
    rw [validateFinding, if_pos hrange,
      if_pos ⟨hsnip, findSub_slice_none hnone⟩, hnone]
  · intro base chunk fs
    rfl

/-- Python `s.upper().startswith(c)` on a name-status letter string. -/
def statusStarts (st : String) (c : Char) : Bool :=
  match st.toList with
  | [] => false
  | ch :: _ => ch.toUpper = c

/-- Python `str.rstrip()` (whitespace at ASCII granularity). -/
def pyRstrip (l : List Char) : List Char := (l.reverse.dropWhile isPySpace).reverse

/-- Plain split on a newline character, keeping a trailing empty part. -/
def splitNl : List Char → List Char → List (List Char)
  | [], acc => [acc.reverse]
  | c :: t, acc =>
    if c = '\n' then acc.reverse :: splitNl t [] else splitNl t (c :: acc)

/-- Python `str.splitlines()` restricted to `\n` separators: the empty string
has no lines and a trailing newline adds no empty line. -/
def splitLines (l : List Char) : List (List Char) :=
  if l = [] then []
  else if l.getLast? = some '\n' then (splitNl l []).dropLast else splitNl l []

/-- Python `str.replace(sub, '')` for a non-empty pattern (used for the
code-fence marker): fueled left-to-right scan. -/
def removeSubGo (sub : List Char) : Nat → List Char → List Char
  | 0, l => l
  | _ + 1, [] => []
  | f + 1, c :: t =>
    if sub.isPrefixOf (c :: t) then removeSubGo sub f ((c :: t).drop sub.length)
    else c :: removeSubGo sub f t

/-- Python `str.replace(sub, '')`. -/
def removeSub (sub l : List Char) : List Char := removeSubGo sub l.length l

/-- The `_fallback_commit_message` helper: counts of added/modified/deleted
files from the status letters, the set of paths touched by either pass, a
plain or security-scoped subject, and a body of summary lines. -/
def fallbackCommitMessage (staged : List (String × String)) (sanitized : List String)
    (llm : List LLMReport) : String :=
  let added := (staged.filter (fun pr => statusStarts pr.1 'A')).length
  let modified := (staged.filter (fun pr => statusStarts pr.1 'M')).length
  let deleted := (staged.filter (fun pr => statusStarts pr.1 'D')).length
  let secPaths := (sanitized ++ llm.map LLMReport.path).dedup
  let subject := if secPaths ≠ [] then
      "chore(security): sanitize secrets and commit changes"
    else "chore: commit staged changes"
  let body :=
    (if added ≠ 0 ∨ modified ≠ 0 ∨ deleted ≠ 0 then
      ["- files: +" ++ toString added ++ " ~" ++ toString modified
        ++ " -" ++ toString deleted]
     else [])
    ++ (if secPaths ≠ [] then
      ["- sanitized secrets in " ++ toString secPaths.length ++ " file(s)"]
     else [])
    ++ ["- auto-generated message (fallback)"]
  subject ++ "\n\n" ++ String.intercalate "\n" body

/-- The code-fence cleanup of a stripped response: when the marker occurs,
remove every occurrence and strip again. -/
def cleanedResponse (raw : String) : List Char :=
  if (findSub (pyStrip raw.toList) ("```".toList)).isSome
  then pyStrip (removeSub ("```".toList) (pyStrip raw.toList))
  else pyStrip raw.toList

/-- The rstripped lines of the cleaned response. -/
def responseLines (raw : String) : List (List Char) :=
  (splitLines (cleanedResponse raw)).map pyRstrip

/-- The INTENDED `generate_commit_message` composer: the function body after
its first statement, with that statement's staged name-status list taken as
the parameter `staged`.  As shipped the first statement is the mangled
`staged = api_key(repo)` (`RepoHelpers.py:608`), which raises before any of
this runs — `generateCommitMessageSrc` below models that; this definition is
kept to compare the intended fallback logic with the spec.  The repository
context, diff and prompts assembled by the source only feed the service
request; `svc` stands for the outcome of that call — `none` for an
exception, `some raw` for `resp.text or ""`.  On any failure the
deterministic fallback is returned; a successful response is stripped,
cleansed of code fences, split into rstripped lines, subject truncated to 72
characters, and normalized to subject/blank/body. -/
def generateCommitMessage (svc : Option String) (staged : List (String × String))
    (sanitized : List String) (llm : List LLMReport) : String :=
  if staged = [] then "chore: no-op (nothing staged)"
  else
    match svc with
    | none => fallbackCommitMessage staged sanitized llm
    | some raw =>
      if pyStrip raw.toList = [] then fallbackCommitMessage staged sanitized llm
      else
        match responseLines raw with
        | [] => fallbackCommitMessage staged sanitized llm
        | l0 :: rest =>
          if l0 = [] then fallbackCommitMessage staged sanitized llm
          else
            String.mk (List.intercalate ['\n']
              ((if 72 < l0.length then l0.take 72 else l0) ::
                (match rest with
                 | [] => []
                 | r0 :: _ => if r0 = [] then rest else [] :: rest)))

/-- The first statement of `generate_commit_message` as shipped:
`staged = api_key(repo)` (`RepoHelpers.py:608`) calls the module-level
configuration string, raising `TypeError`. -/
def stagedNameStatusCall : Except Unit (List (String × String)) := Except.error ()

/-- `generate_commit_message` as shipped: its first statement raises, before
the `try` of `RepoHelpers.py:669`, so the remainder of the body — including
the fallback of lines 695-697 — is dead code. -/
def generateCommitMessageSrc (svc : Option String) (sanitized : List String)
    (llm : List LLMReport) : Except Unit String :=
  match stagedNameStatusCall with
  | Except.error e => Except.error e
  | Except.ok staged => Except.ok (generateCommitMessage svc staged sanitized llm)

/-- C9 (code bug): as shipped the composer never returns any message — every
invocation raises at the mangled first statement, so the guaranteed-fallback
property is false of the program.  The remaining conjuncts show the claim is
true of the intended composer (the body behind the crash): on every failure
of the service call — an exception, a response that strips to nothing, or a
cleaned response with no lines or an empty first line — it returns the
deterministic fallback, whose subject is security-scoped exactly when a pass
touched a file, followed by a blank line and a body carrying the
added/modified/deleted counts whenever any is non-zero and always ending
with the fallback marker line. -/
theorem claim9_composer_never_returns :
    (∀ (svc : Option String) (sanitized : List String) (llm : List LLMReport),
      generateCommitMessageSrc svc sanitized llm = Except.error ()) ∧
    (∀ (staged : List (String × String)) (sanitized : List String)
        (llm : List LLMReport),
      staged ≠ [] →
      generateCommitMessage none staged sanitized llm
        = fallbackCommitMessage staged sanitized llm) ∧
    (∀ (staged : List (String × String)) (sanitized : List String)
        (llm : List LLMReport) (raw : String),
      staged ≠ [] → pyStrip raw.toList = [] →
      generateCommitMessage (some raw) staged sanitized llm
        = fallbackCommitMessage staged sanitized llm) ∧
    (∀ (staged : List (String × String)) (sanitized : List String)
        (llm : List LLMReport) (raw : String),
      staged ≠ [] →
      (responseLines raw = [] ∨ (responseLines raw).head? = some []) →
      generateCommitMessage (some raw) staged sanitized llm
        = fallbackCommitMessage staged sanitized llm) ∧
    (∀ (staged : List (String × String)) (sanitized : List String)
        (llm : List LLMReport),
      ∃ body : List String,
        fallbackCommitMessage staged sanitized llm
          = (if (sanitized ++ llm.map LLMReport.path).dedup ≠ []
             then "chore(security): sanitize secrets and commit changes"
             else "chore: commit staged changes")
            ++ "\n\n" ++ String.intercalate "\n" body ∧
        ((staged.filter (fun pr => statusStarts pr.1 'A')).length ≠ 0 ∨
         (staged.filter (fun pr => statusStarts pr.1 'M')).length ≠ 0 ∨
         (staged.filter (fun pr => statusStarts pr.1 'D')).length ≠ 0 →
          ("- files: +" ++ toString (staged.filter (fun pr => statusStarts pr.1 'A')).length
            ++ " ~" ++ toString (staged.filter (fun pr => statusStarts pr.1 'M')).length
            ++ " -" ++ toString (staged.filter (fun pr => statusStarts pr.1 'D')).length)
            ∈ body) ∧
        body.getLast? = some "- auto-generated message (fallback)") := by
  refine ⟨fun svc sanitized llm => rfl, ?_, ?_, ?_, ?_⟩
  · intro staged sanitized llm hne
    rw [generateCommitMessage, if_neg hne]
  · intro staged sanitized llm raw hne hempty
    rw [generateCommitMessage, if_neg hne]
    rw [if_pos hempty]
  · intro staged sanitized llm raw hne hlines
    rw [generateCommitMessage, if_neg hne]
    by_cases hempty : pyStrip raw.toList = []
    · rw [if_pos hempty]
    · rw [if_neg hempty]
      rcases hlines with h | h
      · rw [h]
      · cases hrl : responseLines raw with
        | nil => rfl
        | cons l0 rest =>
            rw [hrl] at h
            simp only [List.head?_cons, Option.some.injEq] at h
            simp only
            rw [if_pos h]
  · intro staged sanitized llm
    refine ⟨_, rfl, ?_, ?_⟩
    · intro h
      rw [if_pos h]
      simp [List.mem_append]
    · by_cases h1 : (staged.filter (fun pr => statusStarts pr.1 'A')).length ≠ 0 ∨
          (staged.filter (fun pr => statusStarts pr.1 'M')).length ≠ 0 ∨
          (staged.filter (fun pr => statusStarts pr.1 'D')).length ≠ 0
      all_goals
        by_cases h2 : (sanitized ++ llm.map LLMReport.path).dedup ≠ []
      all_goals
        first
        | (rw [if_pos h1, if_pos h2]; simp)
        | (rw [if_pos h1, if_neg h2]; simp)
        | (rw [if_neg h1, if_pos h2]; simp)
        | (rw [if_neg h1, if_neg h2]; simp)

/-! ### auto_commit (workflows.py)

As shipped, `workflows.py` does not parse: line 100 reads
`api_key f'{i["path"]}'`, a SyntaxError, so importing the module — and hence
ever calling `auto_commit` — fails outright.  The definition below embeds
the statement-level semantics the function body denotes, with the mangled
call sites given their as-written meaning: `api_key` is the module-level
configuration string, so `api_key(repo)` raises `TypeError`.  Line 45 sits
inside the fetch `try`, whose `except Exception` handler returns the
"Repository does not have a remote" warning — so EVERY run on a repo with at
least one remote takes that return.  Line 67 has no handler, so every
zero-remote run that gets past the nothing-to-commit check raises; lines
82, 104 and the commit/push blocks behind them are unreachable. -/

/-- Oracle outcomes of one `auto_commit` run: whether `get_git_root` finds a
repository, whether `repo.remotes` is non-empty, and whether anything is
staged after `git add -A`.  Fetch, sanitization, commit and push outcomes
need no modelling: the fetch call always raises (and is caught), and
execution never reaches the rest. -/
structure ACEnv where
  isRepo : Bool
  hasRemotes : Bool
  stagedNonempty : Bool

/-- The dict returned by `auto_commit`: keys absent from a given return
statement are `none`. -/
structure ACResult where
  ok : Bool
  message : Option String
  warn : Option String
  error : Option String
  path : Option String

/-- What a call to `auto_commit` does: return a dict, or raise an uncaught
`TypeError`. -/
inductive ACOutcome
  | ret (r : ACResult)
  | raises

/-- `auto_commit(repo_path)` statement by statement, as written: guard on a
falsy path; guard on not-a-repo; when remotes exist, the fetch `try` runs
`api_key(repo)` (line 45), which raises and is caught — the warning return
of lines 48-52 fires unconditionally; otherwise stage and return
nothing-to-commit when the index is clean; the next statement,
`sanitized = api_key(repo)` (line 67), raises with no handler. -/
def autoCommit (repoPath : Option String) (env : ACEnv) : ACOutcome :=
  match repoPath with
  | none =>
    ACOutcome.ret ⟨false, none, none,
      some "Please open Visual Studio Code first before trying this", none⟩
  | some rp =>
    if rp = "" then
      ACOutcome.ret ⟨false, none, none,
        some "Please open Visual Studio Code first before trying this", some ""⟩
    else if env.isRepo = false then
      ACOutcome.ret ⟨false, none, none, some ("Not a git repository: " ++ rp),
        some rp⟩
    else if env.hasRemotes = true then
      ACOutcome.ret ⟨true, none,
        some ("Repository does not have a remote: " ++ rp), none, some rp⟩
    else if env.stagedNonempty = false then
      ACOutcome.ret ⟨true, some "Nothing to commit", none, none, some rp⟩
    else ACOutcome.raises

/-- C5 (code bug): the claimed zero-remote behavior does not exist.  Every
run on a repo WITH remotes returns the missing-remote warning (the mangled
fetch call raises inside its handler); a zero-remote run either returns the
plain nothing-to-commit result or raises an uncaught `TypeError` — in
particular, any returned result that carries a warning came from a repo with
remotes, never from one with zero remotes; and no zero-remote run ever
reaches the push block (nothing past line 67 runs). -/
theorem claim5_autocommit_no_zero_remote_warning :
    (∀ (rp : String) (env : ACEnv), rp ≠ "" → env.isRepo = true →
        env.hasRemotes = true →
      autoCommit (some rp) env
        = ACOutcome.ret ⟨true, none,
            some ("Repository does not have a remote: " ++ rp), none, some rp⟩) ∧
    (∀ (rp : String) (env : ACEnv), rp ≠ "" → env.isRepo = true →
        env.hasRemotes = false →
      autoCommit (some rp) env
        = (if env.stagedNonempty = false
           then ACOutcome.ret ⟨true, some "Nothing to commit", none, none, some rp⟩
           else ACOutcome.raises)) ∧
    (∀ (rp : String) (env : ACEnv) (r : ACResult),
      autoCommit (some rp) env = ACOutcome.ret r → r.warn ≠ none →
      env.hasRemotes = true) := by
  refine ⟨?_, ?_, ?_⟩
  · intro rp env h1 h2 h3
    simp [autoCommit, h1, h2, h3]
  · intro rp env h1 h2 h3
    simp [autoCommit, h1, h2, h3]
  · intro rp env r h hw
    rw [autoCommit] at h
    by_cases h1 : rp = ""
    · rw [if_pos h1] at h
      cases h
      exact absurd rfl hw
    · rw [if_neg h1] at h
      by_cases h2 : env.isRepo = false
      · rw [if_pos h2] at h
        cases h
        exact absurd rfl hw
      · rw [if_neg h2] at h
        by_cases h3 : env.hasRemotes = true
        · exact h3
        · rw [if_neg h3] at h
          by_cases h4 : env.stagedNonempty = false
          · rw [if_pos h4] at h
            cases h
            exact absurd rfl hw
          · rw [if_neg h4] at h
            cases h
